import Mathlib

/-!
# Verification of the uuid25 library (`src/cjs/uuid25.cjs`)

This file gives a shallow embedding in Lean 4 of the uuid25 JavaScript
library: the arbitrary-precision base converter `convertBase`, the two
digit decoders, the formatters/parsers for the six supported UUID textual
formats, and the `Uuid25` value type, together with proofs of the
specified properties.

Modelling conventions:

* JavaScript strings are modelled as `List Char`; all characters that
  survive the parsers' shape checks are ASCII, where one UTF-16 code unit
  corresponds to one `Char`.
* JavaScript numbers are modelled as `Nat`.  Every arithmetic operation
  performed by the library on its numeric path is exact on IEEE doubles:
  the selected `wordBase` satisfies `wordBase * dstBase ≤ 2^53 - 1`
  (proved below as `selectWord_wordBase_mul_dstBase_le`), so every
  intermediate value of `convertBase` stays below `2^53` where Nat
  arithmetic and double arithmetic agree, `Math.trunc (a / b)` equals
  `a / b` on `Nat`, and the guard
  `wordBase <= Number.MAX_SAFE_INTEGER / (srcBase * dstBase)` decides
  exactly the integer comparison
  `wordBase * (srcBase * dstBase) ≤ MAX_SAFE_INTEGER` (the rounding error
  of the double division is strictly smaller than the distance from the
  exact quotient to the nearest integer on either side).
* Exceptions are modelled with `Except JsError`; the library distinguishes
  `SyntaxError` (`newParseError`), assertion failures (plain `Error`
  thrown by `assert`), and `TypeError`.
-/

/-- The three kinds of exceptions thrown by the library: `SyntaxError`
produced by `newParseError`, the plain `Error` thrown by `assert`, and
`TypeError`. -/
inductive JsError where
  | syntaxError : JsError
  | assertionError : JsError
  | typeError : JsError
deriving DecidableEq, Repr

/-- `Number.MAX_SAFE_INTEGER` (2^53 − 1). -/
def MAX_SAFE_INTEGER : Nat := 9007199254740991

/-- The word-size selection loop of `convertBase`:
`while (wordBase <= Number.MAX_SAFE_INTEGER / (srcBase * dstBase)) {
  wordLen++; wordBase *= srcBase; }`.
The guard is written in the exact integer form (see the header comment).
The fuel argument only serves to make the recursion structural; 60 units
can never run out because the guard forces `wordBase ≤ 2^53` while
`wordBase` at least doubles each iteration (`srcBase ≥ 2`), as
`wordGo_exits_by_guard` below confirms. -/
def wordGo (srcBase dstBase : Nat) : Nat → Nat → Nat → Nat × Nat
  | 0, wordLen, wordBase => (wordLen, wordBase)
  | fuel + 1, wordLen, wordBase =>
    if wordBase * (srcBase * dstBase) ≤ MAX_SAFE_INTEGER then
      wordGo srcBase dstBase fuel (wordLen + 1) (wordBase * srcBase)
    else
      (wordLen, wordBase)

/-- `let wordLen = 1; let wordBase = srcBase;` followed by the selection
loop. -/
def selectWord (srcBase dstBase : Nat) : Nat × Nat :=
  wordGo srcBase dstBase 60 1 srcBase

/-- One pass of the inner sweep of `convertBase`:
`for (let i = dstSize - 1; i >= 0; i--) { carry += dst[i] * wordBase; ... }`.
The first argument `k` is `i + 1`, so the loop starts at `k = dst.length`
and the index processed in a step is `i = k - 1`.  `dst` is the
big-endian destination buffer, `carry` the accumulated word, and
`dstUsed` the memorized left edge of the filled region.  Returns the
updated buffer, the final carry, and the updated `dstUsed`. -/
def innerLoop (dstBase wordBase : Nat) :
    Nat → List Nat → Nat → Nat → List Nat × Nat × Nat
  | 0, dst, carry, dstUsed => (dst, carry, dstUsed)
  | k + 1, dst, carry, dstUsed =>
    let i := k
    let c := carry + dst.getD i 0 * wordBase
    let quo := c / dstBase
    let dst' := dst.set i (c - quo * dstBase)
    -- `dst[i] = carry - quo * dstBase; carry = quo;`
    -- `if (carry === 0 && i <= dstUsed) { dstUsed = i; break; }`
    if quo = 0 ∧ i ≤ dstUsed then (dst', 0, i)
    else innerLoop dstBase wordBase k dst' quo dstUsed

/-- The word-accumulation part of the outer loop of `convertBase`:
`for (i = ...; i < wordHead + wordLen; i++) {
   assert(src[i] < srcBase, "invalid src digit");
   carry = carry * srcBase + src[i]; }`. -/
def wordValue (srcBase : Nat) : List Nat → Nat → Except JsError Nat
  | [], carry => .ok carry
  | d :: ds, carry =>
    if d < srcBase then wordValue srcBase ds (carry * srcBase + d)
    else .error .assertionError

/-- Splits a list into consecutive chunks of length `wordLen` (all of them
full when `wordLen` divides the length).  The fuel argument makes the
recursion structural; `fuel = src.length` always suffices for
`wordLen ≥ 1`. -/
def fullChunks (wordLen : Nat) : Nat → List Nat → List (List Nat)
  | 0, _ => []
  | _, [] => []
  | fuel + 1, src => src.take wordLen :: fullChunks wordLen fuel (src.drop wordLen)

/-- The chunks read by the outer loop of `convertBase`: `wordHead` starts
at `srcSize % wordLen - wordLen` when the remainder is nonzero (a short
first word), producing a first chunk of `srcSize % wordLen` digits
followed by full `wordLen`-digit chunks. -/
def srcChunks (wordLen : Nat) (src : List Nat) : List (List Nat) :=
  let r := src.length % wordLen
  if r = 0 then fullChunks wordLen src.length src
  else src.take r :: fullChunks wordLen src.length (src.drop r)

/-- The outer loop of `convertBase`: for each word chunk, accumulate the
word value, run the inner sweep, and check `assert(carry === 0)`;
failed `assert` calls throw a plain `Error` (`.assertionError`). -/
def outerLoop (srcBase dstBase wordBase dstSize : Nat) :
    List (List Nat) → List Nat → Nat → Except JsError (List Nat)
  | [], dst, _ => .ok dst
  | ws :: rest, dst, dstUsed =>
    match wordValue srcBase ws 0 with
    | .error e => .error e
    | .ok word =>
      let r := innerLoop dstBase wordBase dstSize dst word dstUsed
      -- `assert(carry === 0, "too small dst");`
      if r.2.1 = 0 then
        outerLoop srcBase dstBase wordBase dstSize rest r.1 r.2.2
      else .error .assertionError

/-- `convertBase(src, srcBase, dstBase, dstSize)`: converts a big-endian
digit value array in `srcBase` to one of exactly `dstSize` digits in
`dstBase`. -/
def convertBase (src : List Nat) (srcBase dstBase dstSize : Nat) :
    Except JsError (List Nat) :=
  -- `assert(2 <= srcBase && srcBase <= 256 && 2 <= dstBase && dstBase <= 256)`
  if ¬(2 ≤ srcBase ∧ srcBase ≤ 256 ∧ 2 ≤ dstBase ∧ dstBase ≤ 256) then
    .error .assertionError
  else
    let wordBase := (selectWord srcBase dstBase).2
    let dst := List.replicate dstSize 0
    if src.length = 0 then .ok dst
    -- `assert(dstSize > 0, "too small dst");`
    else if dstSize = 0 then .error .assertionError
    else
      outerLoop srcBase dstBase wordBase dstSize
        (srcChunks (selectWord srcBase dstBase).1 src) dst (dstSize - 1)

/-- The numeric value of a big-endian digit value list. -/
def valBE (base : Nat) (ds : List Nat) : Nat :=
  ds.foldl (fun a d => a * base + d) 0

/-! ## Character tables and string primitives -/

/-- The `DECODE_MAP` table of `decodeDigitChars`, as a function from a
UTF-16 code unit to a digit value: `'0'-'9'` ↦ 0–9, `'A'-'Z'` ↦ 10–35,
`'a'-'z'` ↦ 10–35, everything else (including code points ≥ 128, where
the JS code reads `undefined ?? 0x7f`) ↦ the invalid sentinel `0x7f`. -/
def DECODE_MAP (c : Nat) : Nat :=
  if 48 ≤ c ∧ c ≤ 57 then c - 48
  else if 65 ≤ c ∧ c ≤ 90 then c - 55
  else if 97 ≤ c ∧ c ≤ 122 then c - 87
  else 0x7f

/-- The per-character loop of `decodeDigitChars`:
`digitValues[i] = DECODE_MAP[...] ?? 0x7f; assert(digitValues[i] < base)`. -/
def decodeDigitList (base : Nat) : List Char → Except JsError (List Nat)
  | [] => .ok []
  | ch :: rest =>
    let v := DECODE_MAP ch.toNat
    if v < base then
      match decodeDigitList base rest with
      | .ok vs => .ok (v :: vs)
      | .error e => .error e
    else .error .assertionError

/-- `decodeDigitChars(digitChars, base)`. -/
def decodeDigitChars (digitChars : List Char) (base : Nat) :
    Except JsError (List Nat) :=
  if ¬(2 ≤ base ∧ base ≤ 36) then .error .assertionError
  else decodeDigitList base digitChars

/-- The `CROCKFORD_DECODE_MAP` table built by `decodeCrockfordChars`, as a
function from a UTF-16 code unit to a digit value.  Digits map to 0–9,
`A-H`/`a-h` to 10–17, `J/K` to 18/19, `M/N` to 20/21, `P-T`/`p-t` to
22–26, `V-Z`/`v-z` to 27–31, the confusables `I i L l` to 1 and `O o` to
0; every other code unit (including `U`/`u` and everything ≥ 128) stays
at the invalid sentinel `0x7f`. -/
def CROCKFORD_DECODE_MAP (c : Nat) : Nat :=
  if 48 ≤ c ∧ c ≤ 57 then c - 48
  else if 65 ≤ c ∧ c ≤ 72 then c - 55
  else if 97 ≤ c ∧ c ≤ 104 then c - 87
  else if c = 74 ∨ c = 106 then 18
  else if c = 75 ∨ c = 107 then 19
  else if c = 77 ∨ c = 109 then 20
  else if c = 78 ∨ c = 110 then 21
  else if 80 ≤ c ∧ c ≤ 84 then c - 58
  else if 112 ≤ c ∧ c ≤ 116 then c - 90
  else if 86 ≤ c ∧ c ≤ 90 then c - 59
  else if 118 ≤ c ∧ c ≤ 122 then c - 91
  else if c = 73 ∨ c = 105 ∨ c = 76 ∨ c = 108 then 1
  else if c = 79 ∨ c = 111 then 0
  else 0x7f

/-- `decodeCrockfordChars(digitChars)`:
`digitValues[i] = code < 128 ? CROCKFORD_DECODE_MAP[code] : 0x7f;
assert(digitValues[i] < 32)`. -/
def decodeCrockfordList : List Char → Except JsError (List Nat)
  | [] => .ok []
  | ch :: rest =>
    let v := CROCKFORD_DECODE_MAP ch.toNat
    if v < 32 then
      match decodeCrockfordList rest with
      | .ok vs => .ok (v :: vs)
      | .error e => .error e
    else .error .assertionError

/-- `decodeCrockfordChars(digitChars)`. -/
def decodeCrockfordChars (digitChars : List Char) :
    Except JsError (List Nat) :=
  decodeCrockfordList digitChars

/-- The base-36 output alphabet `"0123456789abcdefghijklmnopqrstuvwxyz"`. -/
def base36Digits : List Char := "0123456789abcdefghijklmnopqrstuvwxyz".data

/-- The base-16 output alphabet `"0123456789abcdef"`. -/
def hexDigits : List Char := "0123456789abcdef".data

/-- The Crockford base-32 output alphabet
`"0123456789ABCDEFGHJKMNPQRSTVWXYZ"`. -/
def crockfordDigits : List Char := "0123456789ABCDEFGHJKMNPQRSTVWXYZ".data

/-- `s.charAt(i)` as a (zero- or one-character) string: out-of-range
indices give the empty string. -/
def charAt (s : List Char) (i : Nat) : List Char :=
  if h : i < s.length then [s.get ⟨i, h⟩] else []

/-- The formatter loops `for (const e of digitValues) buffer += digits.charAt(e)`
(as used by `toHex` and `toCrockford`, which perform no assertion). -/
def encodeRaw (alphabet : List Char) (dv : List Nat) : List Char :=
  (dv.map (charAt alphabet)).flatten

/-- JavaScript string `<` (lexicographic on UTF-16 code units). -/
def jsLt : List Char → List Char → Bool
  | _, [] => false
  | [], _ :: _ => true
  | a :: as, b :: bs =>
    if a.toNat < b.toNat then true
    else if b.toNat < a.toNat then false
    else jsLt as bs

/-- JavaScript string `<=`: `a <= b` is `!(b < a)`. -/
def jsLe (a b : List Char) : Bool := !jsLt b a

/-- `String.prototype.toLowerCase` at the level of code units; the
library only applies it to strings of ASCII alphanumerics (enforced by
the regular expression tested just before), where it maps `A-Z` to
`a-z` and fixes everything else. -/
def lowerCode (n : Nat) : Nat := if 65 ≤ n ∧ n ≤ 90 then n + 32 else n

/-- Code-unit-level ASCII uppercasing (`a-z` to `A-Z`), used to state the
case-insensitivity claims (`s.toUpperCase()` on the ASCII strings the
parsers accept). -/
def upperCode (n : Nat) : Nat := if 97 ≤ n ∧ n ≤ 122 then n - 32 else n

/-- `toLowerCase` on one character. -/
def toLowerAscii (c : Char) : Char := Char.ofNat (lowerCode c.toNat)

/-- `toUpperCase` on one character. -/
def toUpperAscii (c : Char) : Char := Char.ofNat (upperCode c.toNat)

/-- The character class `[0-9A-Za-z]` (also `[0-9a-z]` under the `i`
flag). -/
def isAsciiAlnum (c : Char) : Bool :=
  (48 ≤ c.toNat ∧ c.toNat ≤ 57) ∨ (65 ≤ c.toNat ∧ c.toNat ≤ 90) ∨
    (97 ≤ c.toNat ∧ c.toNat ≤ 122)

/-- The character class `[0-9a-f]` under the `i` flag. -/
def isHexDigitCI (c : Char) : Bool :=
  (48 ≤ c.toNat ∧ c.toNat ≤ 57) ∨ (97 ≤ c.toNat ∧ c.toNat ≤ 102) ∨
    (65 ≤ c.toNat ∧ c.toNat ≤ 70)

/-- The character class `[0-9a-f]` (case-sensitive, as in the formatter
regular expression of `toHyphenated`). -/
def isLowerHexChar (c : Char) : Bool :=
  (48 ≤ c.toNat ∧ c.toNat ≤ 57) ∨ (97 ≤ c.toNat ∧ c.toNat ≤ 102)

/-- The character class `[0-9a-z]` (a lowercase base-36 digit). -/
def isLower36Char (c : Char) : Bool :=
  (48 ≤ c.toNat ∧ c.toNat ≤ 57) ∨ (97 ≤ c.toNat ∧ c.toNat ≤ 122)

/-! ## Regular-expression matching for the hyphenated formats -/

/-- Matches exactly `n` characters of class `p`, returning them and the
rest of the input. -/
def takeGroup (p : Char → Bool) : Nat → List Char → Option (List Char × List Char)
  | 0, s => some ([], s)
  | _ + 1, [] => none
  | n + 1, c :: s =>
    if p c then
      match takeGroup p n s with
      | none => none
      | some g => some (c :: g.1, g.2)
    else none

/-- The literal characters `\x7b` and `\x7d` that delimit the braced
format (code points 123 and 125). -/
def braceOpen : Char := Char.ofNat 123

/-- See `braceOpen`. -/
def braceClose : Char := Char.ofNat 125

/-- Matches one literal character. -/
def expectChar (c : Char) : List Char → Option (List Char)
  | [] => none
  | d :: s => if d = c then some s else none

/-- Matches a literal string case-insensitively (for the `urn:uuid:`
prefix under the regular expression's `i` flag). -/
def expectLitCI : List Char → List Char → Option (List Char)
  | [], s => some s
  | _ :: _, [] => none
  | p :: ps, c :: s =>
    if toLowerAscii c = p then expectLitCI ps s else none

/-- The five captured groups of
`([0-9a-f]{8})-([0-9a-f]{4})-([0-9a-f]{4})-([0-9a-f]{4})-([0-9a-f]{12})`
under the `i` flag, already `.join("")`-ed, plus the remaining input. -/
def matchHyphenBody (s : List Char) : Option (List Char × List Char) :=
  match takeGroup isHexDigitCI 8 s with
  | none => none
  | some (g1, s) =>
  match expectChar '-' s with
  | none => none
  | some s =>
  match takeGroup isHexDigitCI 4 s with
  | none => none
  | some (g2, s) =>
  match expectChar '-' s with
  | none => none
  | some s =>
  match takeGroup isHexDigitCI 4 s with
  | none => none
  | some (g3, s) =>
  match expectChar '-' s with
  | none => none
  | some s =>
  match takeGroup isHexDigitCI 4 s with
  | none => none
  | some (g4, s) =>
  match expectChar '-' s with
  | none => none
  | some s =>
  match takeGroup isHexDigitCI 12 s with
  | none => none
  | some (g5, s) => some (g1 ++ g2 ++ g3 ++ g4 ++ g5, s)

/-- The anchored hyphenated regular expression of `parseHyphenated`. -/
def matchHyphenated (s : List Char) : Option (List Char) :=
  match matchHyphenBody s with
  | none => none
  | some (h, s) => if s = [] then some h else none

/-- The anchored braced regular expression of `parseBraced`. -/
def matchBraced (s : List Char) : Option (List Char) :=
  match expectChar braceOpen s with
  | none => none
  | some s =>
  match matchHyphenBody s with
  | none => none
  | some (h, s) =>
  match expectChar braceClose s with
  | none => none
  | some s => if s = [] then some h else none

/-- The anchored URN regular expression of `parseUrn` (the literal prefix
is matched case-insensitively because of the `i` flag). -/
def matchUrn (s : List Char) : Option (List Char) :=
  match expectLitCI "urn:uuid:".data s with
  | none => none
  | some s =>
  match matchHyphenBody s with
  | none => none
  | some (h, s) => if s = [] then some h else none

/-! ## The `Uuid25` value type and its operations -/

/-- The `Uuid25` class.  The constructor
`constructor(value) { this.value = value; }` stores the string without
any validation; `Uuid25.mk` models it. -/
structure Uuid25 where
  value : List Char
deriving DecidableEq, Repr

namespace Uuid25

/-- `Uuid25.MAX = "f5lxx1zz5pnorynqglhzmsp33"`, the base-36 rendering of
2^128 − 1. -/
def MAX : List Char := "f5lxx1zz5pnorynqglhzmsp33".data

/-- The character-building loop of `fromDigitValues`:
`for (const e of digitValues) { assert(e < digits.length, ...);
buffer += digits.charAt(e); }`. -/
def buildBase36 : List Nat → Except JsError (List Char)
  | [] => .ok []
  | e :: es =>
    if e < base36Digits.length then
      match buildBase36 es with
      | .ok rest => .ok (charAt base36Digits e ++ rest)
      | .error err => .error err
    else .error .assertionError

/-- `Uuid25.fromDigitValues(digitValues)`. -/
def fromDigitValues (digitValues : List Nat) : Except JsError Uuid25 :=
  -- `assert(digitValues.length === 25, "invalid length of digit value array")`
  if digitValues.length ≠ 25 then .error .assertionError
  else
    match buildBase36 digitValues with
    | .error e => .error e
    | .ok buffer =>
      -- `assert(buffer <= Uuid25.MAX, "128-bit overflow")`
      if jsLe buffer MAX then .ok ⟨buffer⟩ else .error .assertionError

/-- `Uuid25.fromBytes(uuidBytes)`; a `Uint8Array` of length 16 is a list
of 16 naturals below 256. -/
def fromBytes (uuidBytes : List Nat) : Except JsError Uuid25 :=
  if uuidBytes.length ≠ 16 then .error .typeError
  else
    match convertBase uuidBytes 256 36 25 with
    | .error e => .error e
    | .ok dv => fromDigitValues dv

/-- `toBytes()`. -/
def toBytes (u : Uuid25) : Except JsError (List Nat) :=
  match decodeDigitChars u.value 36 with
  | .error e => .error e
  | .ok src => convertBase src 36 256 16

/-- `Uuid25.parseUuid25(uuidString)`: test `/^[0-9a-z]{25}$/i`, lowercase,
compare against `MAX`. -/
def parseUuid25 (uuidString : List Char) : Except JsError Uuid25 :=
  if uuidString.length = 25 ∧ uuidString.all isAsciiAlnum then
    let value := uuidString.map toLowerAscii
    if jsLe value MAX then .ok ⟨value⟩ else .error .syntaxError
  else .error .syntaxError

/-- `Uuid25.parseHexImpl(uuidString)` (`undefined` modelled as `none`). -/
def parseHexImpl : Option (List Char) → Except JsError Uuid25
  | none => .error .syntaxError
  | some s =>
    match decodeDigitChars s 16 with
    | .error e => .error e
    | .ok src =>
      match convertBase src 16 36 25 with
      | .error e => .error e
      | .ok dv => fromDigitValues dv

/-- `Uuid25.parseHex(uuidString)`: test `/^[0-9a-f]{32}$/i` and delegate. -/
def parseHex (uuidString : List Char) : Except JsError Uuid25 :=
  parseHexImpl
    (if uuidString.length = 32 ∧ uuidString.all isHexDigitCI then some uuidString
     else none)

/-- `Uuid25.parseHyphenated(uuidString)`. -/
def parseHyphenated (uuidString : List Char) : Except JsError Uuid25 :=
  parseHexImpl (matchHyphenated uuidString)

/-- `Uuid25.parseBraced(uuidString)`. -/
def parseBraced (uuidString : List Char) : Except JsError Uuid25 :=
  parseHexImpl (matchBraced uuidString)

/-- `Uuid25.parseUrn(uuidString)`. -/
def parseUrn (uuidString : List Char) : Except JsError Uuid25 :=
  parseHexImpl (matchUrn uuidString)

/-- `Uuid25.parseCrockford(uuidString)`: test `/^[0-9A-Za-z]{26}$/`,
decode through the Crockford table, convert from base 32. -/
def parseCrockford (uuidString : List Char) : Except JsError Uuid25 :=
  if uuidString.length = 26 ∧ uuidString.all isAsciiAlnum then
    match decodeCrockfordChars uuidString with
    | .error e => .error e
    | .ok src =>
      match convertBase src 32 36 25 with
      | .error e => .error e
      | .ok dv => fromDigitValues dv
  else .error .syntaxError

/-- `Uuid25.parse(uuidString)`: dispatch on the input length. -/
def parse (uuidString : List Char) : Except JsError Uuid25 :=
  if uuidString.length = 25 then parseUuid25 uuidString
  else if uuidString.length = 26 then parseCrockford uuidString
  else if uuidString.length = 32 then parseHex uuidString
  else if uuidString.length = 36 then parseHyphenated uuidString
  else if uuidString.length = 38 then parseBraced uuidString
  else if uuidString.length = 45 then parseUrn uuidString
  else .error .syntaxError

/-- `toHex()`. -/
def toHex (u : Uuid25) : Except JsError (List Char) :=
  match decodeDigitChars u.value 36 with
  | .error e => .error e
  | .ok src =>
    match convertBase src 36 16 32 with
    | .error e => .error e
    | .ok dv => .ok (encodeRaw hexDigits dv)

/-- The formatter regular expression of `toHyphenated`
(`^([0-9a-f]{8})([0-9a-f]{4})([0-9a-f]{4})([0-9a-f]{4})([0-9a-f]{12})$`,
case-sensitive), with the groups already `.join("-")`-ed. -/
def hyphenGroups (h : List Char) : Option (List Char) :=
  match takeGroup isLowerHexChar 8 h with
  | none => none
  | some (g1, h) =>
  match takeGroup isLowerHexChar 4 h with
  | none => none
  | some (g2, h) =>
  match takeGroup isLowerHexChar 4 h with
  | none => none
  | some (g3, h) =>
  match takeGroup isLowerHexChar 4 h with
  | none => none
  | some (g4, h) =>
  match takeGroup isLowerHexChar 12 h with
  | none => none
  | some (g5, h) =>
    if h = [] then
      some (g1 ++ '-' :: g2 ++ '-' :: g3 ++ '-' :: g4 ++ '-' :: g5)
    else none

/-- `toHyphenated()`: when the regular expression fails, `.exec` returns
`null` and the subsequent `.slice` call throws a `TypeError`. -/
def toHyphenated (u : Uuid25) : Except JsError (List Char) :=
  match u.toHex with
  | .error e => .error e
  | .ok h =>
    match hyphenGroups h with
    | some t => .ok t
    | none => .error .typeError

/-- `toBraced()`. -/
def toBraced (u : Uuid25) : Except JsError (List Char) :=
  match u.toHyphenated with
  | .error e => .error e
  | .ok t => .ok (braceOpen :: t ++ [braceClose])

/-- `toUrn()`. -/
def toUrn (u : Uuid25) : Except JsError (List Char) :=
  match u.toHyphenated with
  | .error e => .error e
  | .ok t => .ok ("urn:uuid:".data ++ t)

/-- `toCrockford()`. -/
def toCrockford (u : Uuid25) : Except JsError (List Char) :=
  match decodeDigitChars u.value 36 with
  | .error e => .error e
  | .ok src =>
    match convertBase src 36 32 26 with
    | .error e => .error e
    | .ok dv => .ok (encodeRaw crockfordDigits dv)

end Uuid25


/-! ## Derived notions used to state the properties -/

/-- The character of an output alphabet at digit value `e`. -/
def alphaChar (alphabet : List Char) (e : Nat) : Char := alphabet.getD e '0'

/-- The numeric reading of a string of base-36 digit characters. -/
def decode36 (s : List Char) : List Nat := s.map fun c => DECODE_MAP c.toNat

/-- The invariant of a canonical Uuid25 string: 25 lowercase base-36
digit characters, lexicographically at most `Uuid25.MAX`. -/
def canonicalValue (s : List Char) : Prop :=
  s.length = 25 ∧ (∀ c ∈ s, isLower36Char c = true) ∧ jsLe s Uuid25.MAX = true

/-- The properties of a character transformation that make every parser
of the library invariant under mapping it over the input string. -/
structure ParserInvariant (f : Char → Char) : Prop where
  hexCI : ∀ c, isHexDigitCI (f c) = isHexDigitCI c
  alnum : ∀ c, isAsciiAlnum (f c) = isAsciiAlnum c
  dm : ∀ c, DECODE_MAP (f c).toNat = DECODE_MAP c.toNat
  cm : ∀ c, CROCKFORD_DECODE_MAP (f c).toNat = CROCKFORD_DECODE_MAP c.toNat
  low : ∀ c, toLowerAscii (f c) = toLowerAscii c
  dash : ∀ c, (f c = '-') ↔ (c = '-')
  lbrace : ∀ c, (f c = braceOpen) ↔ (c = braceOpen)
  rbrace : ∀ c, (f c = braceClose) ↔ (c = braceClose)

/-- The claim-side replacement: `I`, `i`, `L`, `l` become `1`; `O`, `o`
become `0`. -/
def crockfordNormalize (c : Char) : Char :=
  if c = 'I' ∨ c = 'i' ∨ c = 'L' ∨ c = 'l' then '1'
  else if c = 'O' ∨ c = 'o' then '0'
  else c

/-- The claim-side numeric reading of a 26-character string through the
Crockford decode table. -/
def crockfordValue (s : List Char) : Nat :=
  valBE 32 (s.map fun c => CROCKFORD_DECODE_MAP c.toNat)

/-! ## Arithmetic of big-endian digit lists -/

theorem valBE_nil (b : Nat) : valBE b [] = 0 := rfl

theorem foldl_horner (b : Nat) (l : List Nat) (a : Nat) :
    List.foldl (fun x d => x * b + d) a l = a * b ^ l.length + valBE b l := by
  induction l generalizing a with
  | nil => simp [valBE]
  | cons d l ih =>
    have hval : valBE b (d :: l) = d * b ^ l.length + valBE b l := by
      show List.foldl (fun x d => x * b + d) 0 (d :: l) = _
      simp only [List.foldl_cons, Nat.zero_mul, Nat.zero_add]
      exact ih d
    simp only [List.foldl_cons, List.length_cons, hval]
    rw [ih (a * b + d)]
    ring

theorem valBE_cons (b d : Nat) (l : List Nat) :
    valBE b (d :: l) = d * b ^ l.length + valBE b l := by
  show List.foldl (fun x d => x * b + d) 0 (d :: l) = _
  simp only [List.foldl_cons, Nat.zero_mul, Nat.zero_add]
  exact foldl_horner b l d

theorem valBE_append (b : Nat) (l1 l2 : List Nat) :
    valBE b (l1 ++ l2) = valBE b l1 * b ^ l2.length + valBE b l2 := by
  show List.foldl _ 0 (l1 ++ l2) = _
  rw [List.foldl_append]
  exact foldl_horner b l2 _

theorem valBE_singleton (b d : Nat) : valBE b [d] = d := by
  simp [valBE_cons, valBE]

theorem valBE_lt (b : Nat) (l : List Nat) (h : ∀ d ∈ l, d < b) :
    valBE b l < b ^ l.length := by
  induction l with
  | nil => simp [valBE]
  | cons d l ih =>
    have hd : d < b := h d (List.mem_cons_self d l)
    have hl := ih (fun x hx => h x (List.mem_cons_of_mem d hx))
    rw [valBE_cons, List.length_cons, pow_succ]
    calc d * b ^ l.length + valBE b l < d * b ^ l.length + b ^ l.length := by omega
    _ = (d + 1) * b ^ l.length := by ring
    _ ≤ b * b ^ l.length := Nat.mul_le_mul_right _ (by omega)
    _ = b ^ l.length * b := by ring

theorem valBE_eq_zero (b : Nat) (l : List Nat) (h : ∀ d ∈ l, d = 0) :
    valBE b l = 0 := by
  induction l with
  | nil => rfl
  | cons d l ih =>
    rw [valBE_cons, h d (List.mem_cons_self d l),
      ih (fun x hx => h x (List.mem_cons_of_mem d hx))]
    simp

theorem valBE_replicate_zero (b n : Nat) : valBE b (List.replicate n 0) = 0 :=
  valBE_eq_zero b _ (fun _ hx => List.eq_of_mem_replicate hx)

/-- Fixed-length digit representations are unique. -/
theorem valBE_inj (b : Nat) (l1 l2 : List Nat)
    (h1 : ∀ d ∈ l1, d < b) (h2 : ∀ d ∈ l2, d < b)
    (hlen : l1.length = l2.length) (hval : valBE b l1 = valBE b l2) :
    l1 = l2 := by
  induction l1 generalizing l2 with
  | nil =>
    cases l2 with
    | nil => rfl
    | cons d l => simp at hlen
  | cons d1 t1 ih =>
    cases l2 with
    | nil => simp at hlen
    | cons d2 t2 =>
      have hlen' : t1.length = t2.length := by simpa using hlen
      have hv1 := valBE_lt b t1 (fun x hx => h1 x (List.mem_cons_of_mem d1 hx))
      have hv2 := valBE_lt b t2 (fun x hx => h2 x (List.mem_cons_of_mem d2 hx))
      rw [valBE_cons, valBE_cons, hlen'] at hval
      have hd : d1 = d2 := by
        rcases Nat.lt_trichotomy d1 d2 with h | h | h
        · exfalso
          have : d1 * b ^ t2.length + valBE b t1 < d2 * b ^ t2.length + valBE b t2 := by
            have : (d1 + 1) * b ^ t2.length ≤ d2 * b ^ t2.length :=
              Nat.mul_le_mul_right _ (by omega)
            rw [hlen'] at hv1
            nlinarith
          omega
        · exact h
        · exfalso
          have : d2 * b ^ t2.length + valBE b t2 < d1 * b ^ t2.length + valBE b t1 := by
            have : (d2 + 1) * b ^ t2.length ≤ d1 * b ^ t2.length :=
              Nat.mul_le_mul_right _ (by omega)
            nlinarith
          omega
      subst hd
      have ht : t1 = t2 :=
        ih t2 (fun x hx => h1 x (List.mem_cons_of_mem d1 hx))
          (fun x hx => h2 x (List.mem_cons_of_mem d1 hx)) hlen'
          (Nat.add_left_cancel hval)
      rw [ht]

/-! ## List helper lemmas -/

theorem take_set_of_le {α : Type} (l : List α) (i k : Nat) (a : α) (h : k ≤ i) :
    (l.set i a).take k = l.take k := by
  apply List.ext_getElem?
  intro n
  rw [List.getElem?_take, List.getElem?_take]
  by_cases hn : n < k
  · simp only [hn, if_true, List.getElem?_set]
    have : i ≠ n := by omega
    simp [this]
  · simp [hn]

theorem getD_set_ne {α : Type} (l : List α) (i j : Nat) (a d : α) (h : i ≠ j) :
    (l.set i a).getD j d = l.getD j d := by
  rw [List.getD_eq_getElem?_getD, List.getD_eq_getElem?_getD, List.getElem?_set]
  simp [h]

theorem getD_set_self {α : Type} (l : List α) (i : Nat) (a d : α)
    (h : i < l.length) : (l.set i a).getD i d = a := by
  rw [List.getD_eq_getElem?_getD, List.getElem?_set]
  simp [h]

theorem take_succ_getD {α : Type} (l : List α) (k : Nat) (d : α)
    (h : k < l.length) : l.take (k + 1) = l.take k ++ [l.getD k d] := by
  rw [List.take_succ, List.getElem?_eq_getElem h, List.getD_eq_getElem l d h]
  rfl

theorem getD_of_drop_eq {α : Type} (l l' : List α) (k : Nat) (d : α)
    (h : l.drop k = l'.drop k) : l.getD k d = l'.getD k d := by
  rw [List.getD_eq_getElem?_getD, List.getD_eq_getElem?_getD]
  have h0 := congrArg (fun t : List α => t[0]?) h
  simp only [List.getElem?_drop, Nat.add_zero] at h0
  rw [h0]

theorem valBE_take_zero (b : Nat) (l : List Nat) (k : Nat)
    (h : ∀ j, j < k → l.getD j 0 = 0) : valBE b (l.take k) = 0 := by
  apply valBE_eq_zero
  intro d hd
  obtain ⟨j, hj, hval⟩ := List.mem_iff_getElem.mp hd
  have hjk : j < k := by
    have := hj
    simp only [List.length_take] at this
    omega
  have hjl : j < l.length := by
    have := hj
    simp only [List.length_take] at this
    omega
  rw [List.getElem_take] at hval
  rw [← hval, ← List.getD_eq_getElem l 0 hjl]
  exact h j hjk

/-! ## Word-size selection -/

theorem wordGo_spec (srcBase dstBase : Nat) :
    ∀ (fuel wl wb : Nat), wb * dstBase ≤ MAX_SAFE_INTEGER →
      wb = srcBase ^ wl → 1 ≤ wl →
      (wordGo srcBase dstBase fuel wl wb).2 * dstBase ≤ MAX_SAFE_INTEGER ∧
      (wordGo srcBase dstBase fuel wl wb).2
        = srcBase ^ (wordGo srcBase dstBase fuel wl wb).1 ∧
      1 ≤ (wordGo srcBase dstBase fuel wl wb).1 := by
  intro fuel
  induction fuel with
  | zero => exact fun wl wb h1 h2 h3 => ⟨h1, h2, h3⟩
  | succ fuel ih =>
    intro wl wb h1 h2 h3
    rw [wordGo]
    by_cases hc : wb * (srcBase * dstBase) ≤ MAX_SAFE_INTEGER
    · simp only [hc, if_true]
      apply ih
      · calc wb * srcBase * dstBase = wb * (srcBase * dstBase) := by ring
        _ ≤ MAX_SAFE_INTEGER := hc
      · rw [h2, pow_succ]
      · omega
    · simp only [hc, if_false]
      exact ⟨h1, h2, h3⟩

/-- The selected word satisfies `wordBase = srcBase ^ wordLen`,
`wordLen ≥ 1`, and `wordBase * dstBase ≤ Number.MAX_SAFE_INTEGER` (so the
largest intermediate value of the inner sweep, `dstBase * wordBase − 1`,
is an exact double). -/
theorem selectWord_spec (srcBase dstBase : Nat)
    (hs' : srcBase ≤ 256) (hd' : dstBase ≤ 256) :
    (selectWord srcBase dstBase).2 * dstBase ≤ MAX_SAFE_INTEGER ∧
    (selectWord srcBase dstBase).2 = srcBase ^ (selectWord srcBase dstBase).1 ∧
    1 ≤ (selectWord srcBase dstBase).1 := by
  apply wordGo_spec
  · calc srcBase * dstBase ≤ 256 * 256 := Nat.mul_le_mul hs' hd'
    _ ≤ MAX_SAFE_INTEGER := by norm_num [MAX_SAFE_INTEGER]
  · exact (pow_one srcBase).symm
  · exact le_refl 1

/-- The fuel of `wordGo` never runs out: the result fails the loop guard,
exactly as the state left behind by the JavaScript `while` loop does. -/
theorem wordGo_exits_by_guard (srcBase dstBase : Nat)
    (hs : 2 ≤ srcBase) (hd : 1 ≤ dstBase) :
    ∀ (fuel wl wb : Nat), 1 ≤ wb → MAX_SAFE_INTEGER < 2 ^ fuel * wb →
      ¬ ((wordGo srcBase dstBase fuel wl wb).2 * (srcBase * dstBase)
          ≤ MAX_SAFE_INTEGER) := by
  intro fuel
  induction fuel with
  | zero =>
    intro wl wb hw hbig
    simp only [wordGo]
    intro hle
    have h2 : 2 ≤ srcBase * dstBase :=
      le_trans hs (Nat.le_mul_of_pos_right srcBase hd)
    have : wb ≤ wb * (srcBase * dstBase) := Nat.le_mul_of_pos_right wb (by omega)
    simp only [pow_zero, one_mul] at hbig
    omega
  | succ fuel ih =>
    intro wl wb hw hbig
    rw [wordGo]
    by_cases hc : wb * (srcBase * dstBase) ≤ MAX_SAFE_INTEGER
    · simp only [hc, if_true]
      apply ih
      · exact le_trans hw (Nat.le_mul_of_pos_right wb (by omega))
      · calc MAX_SAFE_INTEGER < 2 ^ (fuel + 1) * wb := hbig
        _ = 2 ^ fuel * wb * 2 := by ring
        _ ≤ 2 ^ fuel * wb * srcBase := Nat.mul_le_mul_left _ hs
        _ = 2 ^ fuel * (wb * srcBase) := by ring
    · rw [if_neg hc]
      exact hc

/-! ## Correctness of the inner sweep -/

/-- Unfolding equation for one step of the inner sweep. -/
theorem innerLoop_succ (dstBase wordBase k : Nat) (dst : List Nat)
    (carry dstUsed : Nat) :
    innerLoop dstBase wordBase (k + 1) dst carry dstUsed =
      (if (carry + dst.getD k 0 * wordBase) / dstBase = 0 ∧ k ≤ dstUsed then
        (dst.set k ((carry + dst.getD k 0 * wordBase)
          - ((carry + dst.getD k 0 * wordBase) / dstBase) * dstBase), 0, k)
      else
        innerLoop dstBase wordBase k
          (dst.set k ((carry + dst.getD k 0 * wordBase)
            - ((carry + dst.getD k 0 * wordBase) / dstBase) * dstBase))
          ((carry + dst.getD k 0 * wordBase) / dstBase) dstUsed) := rfl

/-- Main invariant of the inner sweep: starting from index `k − 1` on a
buffer whose pending prefix is zero left of `dstUsed`, the sweep performs
an exact multiply-accumulate on the `k`-digit prefix, keeps the digits
below the base, leaves the suffix untouched, and (when the final carry is
zero) leaves only zeros left of the updated `dstUsed`. -/
theorem innerLoop_spec (dstBase wordBase : Nat) (hb : 0 < dstBase) :
    ∀ (k : Nat) (dst : List Nat) (carry dstUsed : Nat)
      (dst' : List Nat) (cout du' : Nat),
      innerLoop dstBase wordBase k dst carry dstUsed = (dst', cout, du') →
      k ≤ dst.length →
      (∀ j, j < k → j < dstUsed → dst.getD j 0 = 0) →
      (0 < k ∨ carry ≠ 0) →
      dst'.length = dst.length ∧
      dst'.drop k = dst.drop k ∧
      (∀ j, j < k → dst'.getD j 0 < dstBase) ∧
      valBE dstBase (dst'.take k) + cout * dstBase ^ k
        = valBE dstBase (dst.take k) * wordBase + carry ∧
      (cout = 0 → (∀ j, j < du' → dst'.getD j 0 = 0) ∧ du' ≤ dstUsed) := by
  intro k
  induction k with
  | zero =>
    intro dst carry dstUsed dst' cout du' heq _ _ hguard
    rw [innerLoop] at heq
    obtain ⟨rfl, rfl, rfl⟩ : dst = dst' ∧ carry = cout ∧ dstUsed = du' := by
      injection heq with h1 h2
      injection h2 with h2 h3
      exact ⟨h1, h2, h3⟩
    refine ⟨rfl, rfl, by omega, by simp [valBE], ?_⟩
    intro hc0
    exact absurd hc0 (hguard.resolve_left (by omega))
  | succ k ih =>
    intro dst carry dstUsed dst' cout du' heq hk hz hguard
    have hklen : k < dst.length := by omega
    set d := dst.getD k 0 with hd
    set c := carry + d * wordBase with hc
    set quo := c / dstBase with hquo
    have hdigit : c - quo * dstBase = c % dstBase := by
      rw [Nat.mod_def, Nat.mul_comm]
    rw [innerLoop_succ] at heq
    rw [← hd, ← hc, ← hquo, hdigit] at heq
    have htake : (dst.set k (c % dstBase)).take k = dst.take k :=
      take_set_of_le dst k k _ (le_refl k)
    by_cases hcond : quo = 0 ∧ k ≤ dstUsed
    · -- break: the carry is zero and the remaining prefix is known zero
      rw [if_pos hcond] at heq
      obtain ⟨rfl, rfl, rfl⟩ :
          dst.set k (c % dstBase) = dst' ∧ 0 = cout ∧ k = du' := by
        injection heq with h1 h2
        injection h2 with h2 h3
        exact ⟨h1, h2, h3⟩
      obtain ⟨hq0, hku⟩ := hcond
      have hclt : c < dstBase := (Nat.div_eq_zero_iff hb).mp hq0
      have hmod : c % dstBase = c := Nat.mod_eq_of_lt hclt
      have hzero : ∀ j, j < k → dst.getD j 0 = 0 := fun j hj =>
        hz j (by omega) (by omega)
      have hzero' : ∀ j, j < k → (dst.set k (c % dstBase)).getD j 0 = 0 := by
        intro j hj
        rw [getD_set_ne dst k j _ 0 (by omega)]
        exact hzero j hj
      refine ⟨List.length_set dst k _, ?_, ?_, ?_, ?_⟩
      · rw [List.drop_set]
        simp
      · intro j hj
        by_cases hjk : j < k
        · rw [hzero' j hjk]; exact hb
        · have : j = k := by omega
          subst this
          rw [getD_set_self dst j _ 0 hklen]
          exact Nat.mod_lt c hb
      · have hlen' : k < (dst.set k (c % dstBase)).length := by
          rw [List.length_set]; exact hklen
        rw [take_succ_getD _ k 0 hlen', take_succ_getD dst k 0 hklen,
          valBE_append, valBE_append, valBE_singleton, valBE_singleton,
          htake, getD_set_self dst k _ 0 hklen,
          valBE_take_zero dstBase dst k hzero, hmod]
        simp only [List.length_cons, List.length_nil, pow_one, Nat.zero_mul,
          Nat.zero_add]
        rw [hc]
        ring
      · intro _
        exact ⟨hzero', hku⟩
    · -- no break: recurse on the shortened prefix
      rw [if_neg hcond] at heq
      have hguard' : 0 < k ∨ quo ≠ 0 := by
        by_cases hk0 : 0 < k
        · exact Or.inl hk0
        · right
          intro hq0
          exact hcond ⟨hq0, by omega⟩
      have hz' : ∀ j, j < k → j < dstUsed → (dst.set k (c % dstBase)).getD j 0 = 0 := by
        intro j hj hju
        rw [getD_set_ne dst k j _ 0 (by omega)]
        exact hz j (by omega) hju
      have hk' : k ≤ (dst.set k (c % dstBase)).length := by
        rw [List.length_set]; omega
      obtain ⟨hlen, hdrop, hdig, hval, hcz⟩ :=
        ih (dst.set k (c % dstBase)) quo dstUsed dst' cout du' heq hk' hz' hguard'
      have hlen' : dst'.length = dst.length := by
        rw [hlen, List.length_set]
      have hdropk : dst'.drop (k + 1) = dst.drop (k + 1) := by
        have h1 : dst'.drop (k + 1) = (dst'.drop k).drop 1 := by
          rw [List.drop_drop]
        have h2 : ((dst.set k (c % dstBase)).drop k).drop 1
            = (dst.set k (c % dstBase)).drop (k + 1) := by
          rw [List.drop_drop]
        rw [h1, hdrop, h2, List.drop_set]
        simp
      have hgetk : dst'.getD k 0 = c % dstBase := by
        rw [getD_of_drop_eq dst' (dst.set k (c % dstBase)) k 0 hdrop]
        exact getD_set_self dst k _ 0 hklen
      refine ⟨hlen', hdropk, ?_, ?_, hcz⟩
      · intro j hj
        by_cases hjk : j < k
        · exact hdig j hjk
        · have : j = k := by omega
          subst this
          rw [hgetk]
          exact Nat.mod_lt c hb
      · have hklen'' : k < dst'.length := by omega
        rw [htake] at hval
        calc valBE dstBase (dst'.take (k + 1)) + cout * dstBase ^ (k + 1)
            = valBE dstBase (dst'.take k) * dstBase + dst'.getD k 0
              + cout * dstBase ^ (k + 1) := by
              rw [take_succ_getD dst' k 0 hklen'', valBE_append, valBE_singleton]
              simp [pow_one]
          _ = (valBE dstBase (dst'.take k) + cout * dstBase ^ k) * dstBase
              + c % dstBase := by
              rw [hgetk]; ring
          _ = (valBE dstBase (dst.take k) * wordBase + quo) * dstBase
              + c % dstBase := by rw [hval]
          _ = valBE dstBase (dst.take k) * wordBase * dstBase
              + (dstBase * quo + c % dstBase) := by ring
          _ = valBE dstBase (dst.take k) * wordBase * dstBase + c := by
              rw [hquo, Nat.div_add_mod]
          _ = (valBE dstBase (dst.take k) * dstBase + d) * wordBase + carry := by
              rw [hc]; ring
          _ = valBE dstBase (dst.take (k + 1)) * wordBase + carry := by
              rw [take_succ_getD dst k 0 hklen, valBE_append, valBE_singleton, ← hd]
              simp only [List.length_singleton, pow_one]

/-! ## Correctness of the outer loop and of `convertBase` -/

theorem wordValue_ok (srcBase : Nat) :
    ∀ (ws : List Nat), (∀ d ∈ ws, d < srcBase) → ∀ c,
      wordValue srcBase ws c
        = .ok (List.foldl (fun a d => a * srcBase + d) c ws) := by
  intro ws
  induction ws with
  | nil => intro _ c; rfl
  | cons d ds ih =>
    intro h c
    rw [wordValue, if_pos (h d (List.mem_cons_self d ds))]
    exact ih (fun x hx => h x (List.mem_cons_of_mem d hx)) (c * srcBase + d)

theorem wordValue_valBE (srcBase : Nat) (ws : List Nat)
    (h : ∀ d ∈ ws, d < srcBase) :
    wordValue srcBase ws 0 = .ok (valBE srcBase ws) :=
  wordValue_ok srcBase ws h 0

/-- Digit-wise bounds transfer between the `getD` form and the
membership form. -/
theorem forall_mem_of_forall_getD (l : List Nat) (p : Nat → Prop)
    (h : ∀ j, j < l.length → p (l.getD j 0)) : ∀ d ∈ l, p d := by
  intro d hd
  obtain ⟨j, hj, hval⟩ := List.mem_iff_getElem.mp hd
  rw [← hval, ← List.getD_eq_getElem l 0 hj]
  exact h j hj

theorem forall_getD_of_forall_mem (l : List Nat) (p : Nat → Prop)
    (h : ∀ d ∈ l, p d) : ∀ j, j < l.length → p (l.getD j 0) := by
  intro j hj
  rw [List.getD_eq_getElem l 0 hj]
  exact h _ (List.mem_iff_getElem.mpr ⟨j, hj, rfl⟩)

/-- The running value of the outer loop is monotone in the chunks
(each step multiplies by `wordBase ≥ 1` and adds a word). -/
theorem chunkFold_le (srcBase wordBase : Nat) (hw : 1 ≤ wordBase) :
    ∀ (chunks : List (List Nat)) (a : Nat),
      a ≤ List.foldl (fun x ws => x * wordBase + valBE srcBase ws) a chunks := by
  intro chunks
  induction chunks with
  | nil => intro a; exact le_refl a
  | cons ws rest ih =>
    intro a
    calc a ≤ a * wordBase + valBE srcBase ws := by
          have := Nat.le_mul_of_pos_right a (by omega : 0 < wordBase)
          omega
    _ ≤ _ := ih (a * wordBase + valBE srcBase ws)

/-- Folding word values over equally sized chunks computes the value of
the flattened digit string. -/
theorem chunkFold_flatten (srcBase wordLen : Nat) :
    ∀ (chunks : List (List Nat)), (∀ ws ∈ chunks, ws.length = wordLen) →
      ∀ a, List.foldl (fun x ws => x * srcBase ^ wordLen + valBE srcBase ws) a chunks
        = a * srcBase ^ chunks.flatten.length + valBE srcBase chunks.flatten := by
  intro chunks
  induction chunks with
  | nil => intro _ a; simp [valBE]
  | cons ws rest ih =>
    intro h a
    have hws : ws.length = wordLen := h ws (List.mem_cons_self ws rest)
    rw [List.foldl_cons, ih (fun x hx => h x (List.mem_cons_of_mem ws hx)),
      List.flatten_cons, valBE_append, List.length_append, pow_add, ← hws]
    ring

/-- `fullChunks` of a list whose length is a positive multiple of
`wordLen`: the chunks flatten back to the list, all have length
`wordLen`, and their digits are digits of the list. -/
theorem fullChunks_spec (wordLen : Nat) (hw : 1 ≤ wordLen) :
    ∀ (fuel : Nat) (l : List Nat), l.length ≤ fuel → wordLen ∣ l.length →
      (fullChunks wordLen fuel l).flatten = l ∧
      (∀ ws ∈ fullChunks wordLen fuel l, ws.length = wordLen) ∧
      (∀ ws ∈ fullChunks wordLen fuel l, ∀ d ∈ ws, d ∈ l) := by
  intro fuel
  induction fuel with
  | zero =>
    intro l hl _
    have : l = [] := List.eq_nil_of_length_eq_zero (by omega)
    subst this
    exact ⟨rfl, by simp [fullChunks], by simp [fullChunks]⟩
  | succ fuel ih =>
    intro l hl hdvd
    cases l with
    | nil => exact ⟨rfl, by simp [fullChunks], by simp [fullChunks]⟩
    | cons x xs =>
      have hlen : wordLen ≤ (x :: xs).length := by
        rcases hdvd with ⟨m, hm⟩
        rcases Nat.eq_zero_or_pos m with h0 | h0
        · simp [h0] at hm
        · calc wordLen = wordLen * 1 := by ring
          _ ≤ wordLen * m := Nat.mul_le_mul_left _ h0
          _ = (x :: xs).length := hm.symm
      have hdrop : wordLen ∣ ((x :: xs).drop wordLen).length := by
        rw [List.length_drop]
        exact (Nat.dvd_sub' hdvd (dvd_refl wordLen))
      have hdroplen : ((x :: xs).drop wordLen).length ≤ fuel := by
        rw [List.length_drop]
        simp only [List.length_cons] at hl ⊢
        omega
      obtain ⟨hflat, hlens, hmem⟩ := ih ((x :: xs).drop wordLen) hdroplen hdrop
      have hstep : fullChunks wordLen (fuel + 1) (x :: xs)
          = (x :: xs).take wordLen :: fullChunks wordLen fuel ((x :: xs).drop wordLen) :=
        rfl
      refine ⟨?_, ?_, ?_⟩
      · rw [hstep, List.flatten_cons, hflat, List.take_append_drop]
      · intro ws hws
        rw [hstep] at hws
        rcases List.mem_cons.mp hws with h | h
        · subst h
          rw [List.length_take]
          omega
        · exact hlens ws h
      · intro ws hws d hd
        rw [hstep] at hws
        rcases List.mem_cons.mp hws with h | h
        · subst h
          exact List.mem_of_mem_take hd
        · exact List.mem_of_mem_drop (hmem ws h d hd)

/-- The chunks produced by `srcChunks` flatten back to `src`, have the
word length (except possibly a shorter first chunk), and only contain
digits of `src`; consequently folding the word values over them computes
`valBE srcBase src`. -/
theorem srcChunks_fold (srcBase wordLen : Nat) (hw : 1 ≤ wordLen)
    (src : List Nat) :
    List.foldl (fun x ws => x * srcBase ^ wordLen + valBE srcBase ws) 0
        (srcChunks wordLen src) = valBE srcBase src ∧
    (∀ ws ∈ srcChunks wordLen src, ∀ d ∈ ws, d ∈ src) := by
  unfold srcChunks
  by_cases hr : src.length % wordLen = 0
  · simp only [hr, if_true]
    have hdvd : wordLen ∣ src.length := Nat.dvd_of_mod_eq_zero hr
    obtain ⟨hflat, hlens, hmem⟩ := fullChunks_spec wordLen hw src.length src (le_refl _) hdvd
    constructor
    · rw [chunkFold_flatten srcBase wordLen _ hlens 0, hflat]
      simp
    · intro ws hws d hd
      exact hmem ws hws d hd
  · simp only [hr, if_false]
    set r := src.length % wordLen with hrdef
    have hdvd : wordLen ∣ (src.drop r).length := by
      rw [List.length_drop]
      exact ⟨src.length / wordLen, by
        have := Nat.div_add_mod src.length wordLen
        omega⟩
    have hfuel : (src.drop r).length ≤ src.length := by
      rw [List.length_drop]; omega
    obtain ⟨hflat, hlens, hmem⟩ :=
      fullChunks_spec wordLen hw src.length (src.drop r) hfuel hdvd
    constructor
    · rw [List.foldl_cons, chunkFold_flatten srcBase wordLen _ hlens, hflat]
      conv_rhs => rw [← List.take_append_drop r src]
      rw [valBE_append]
      simp
    · intro ws hws d hd
      rcases List.mem_cons.mp hws with h | h
      · subst h
        exact List.mem_of_mem_take hd
      · exact List.mem_of_mem_drop (hmem ws h d hd)

/-- Running the outer loop: if the accumulated value fits in `dstSize`
digits the loop succeeds and computes it; otherwise `assert(carry === 0)`
fails with an assertion error. -/
theorem outerLoop_spec (srcBase dstBase wordBase n : Nat)
    (hb : 0 < dstBase) (hw : 1 ≤ wordBase) (hn : 0 < n) :
    ∀ (chunks : List (List Nat)) (dst : List Nat) (dstUsed : Nat),
      dst.length = n →
      (∀ d ∈ dst, d < dstBase) →
      (∀ j, j < dstUsed → dst.getD j 0 = 0) →
      (∀ ws ∈ chunks, ∀ d ∈ ws, d < srcBase) →
      (List.foldl (fun x ws => x * wordBase + valBE srcBase ws)
          (valBE dstBase dst) chunks < dstBase ^ n →
        ∃ dst', outerLoop srcBase dstBase wordBase n chunks dst dstUsed = .ok dst' ∧
          dst'.length = n ∧ (∀ d ∈ dst', d < dstBase) ∧
          valBE dstBase dst'
            = List.foldl (fun x ws => x * wordBase + valBE srcBase ws)
                (valBE dstBase dst) chunks) ∧
      (dstBase ^ n ≤ List.foldl (fun x ws => x * wordBase + valBE srcBase ws)
          (valBE dstBase dst) chunks →
        outerLoop srcBase dstBase wordBase n chunks dst dstUsed
          = .error .assertionError) := by
  intro chunks
  induction chunks with
  | nil =>
    intro dst dstUsed hlen hdig _ _
    constructor
    · intro _
      exact ⟨dst, rfl, hlen, hdig, rfl⟩
    · intro hge
      exfalso
      have := valBE_lt dstBase dst hdig
      rw [hlen] at this
      simp only [List.foldl_nil] at hge
      omega
  | cons ws rest ih =>
    intro dst dstUsed hlen hdig hzero hsrc
    have hws : ∀ d ∈ ws, d < srcBase := hsrc ws (List.mem_cons_self ws rest)
    have hrest : ∀ w ∈ rest, ∀ d ∈ w, d < srcBase :=
      fun w hw' => hsrc w (List.mem_cons_of_mem ws hw')
    have hwv := wordValue_valBE srcBase ws hws
    rcases hres : innerLoop dstBase wordBase n dst (valBE srcBase ws) dstUsed
      with ⟨dst1, cout, du1⟩
    obtain ⟨hlen1, _, hdig1, hval1, hcz1⟩ :=
      innerLoop_spec dstBase wordBase hb n dst (valBE srcBase ws) dstUsed
        dst1 cout du1 hres (le_of_eq hlen.symm)
        (fun j _ hj => hzero j hj) (Or.inl hn)
    have htake1 : dst1.take n = dst1 := List.take_of_length_le (by omega)
    have htake : dst.take n = dst := List.take_of_length_le (by omega)
    rw [htake1, htake] at hval1
    have hstep : outerLoop srcBase dstBase wordBase n (ws :: rest) dst dstUsed
        = if cout = 0 then outerLoop srcBase dstBase wordBase n rest dst1 du1
          else .error .assertionError := by
      rw [outerLoop, hwv]
      simp only [hres]
    by_cases hc0 : cout = 0
    · subst hc0
      simp only [Nat.zero_mul, Nat.add_zero] at hval1
      obtain ⟨hz1, _⟩ := hcz1 rfl
      have hdig1' : ∀ d ∈ dst1, d < dstBase :=
        forall_mem_of_forall_getD dst1 (· < dstBase)
          (fun j hj => hdig1 j (by omega))
      obtain ⟨ihok, iherr⟩ := ih dst1 du1 (by omega) hdig1' hz1 hrest
      rw [hval1] at ihok iherr
      constructor
      · intro hfit
        simp only [List.foldl_cons] at hfit ⊢
        obtain ⟨dst', hd1, hd2, hd3, hd4⟩ := ihok hfit
        refine ⟨dst', ?_, hd2, hd3, hd4⟩
        rw [hstep, if_pos rfl]
        exact hd1
      · intro hge
        simp only [List.foldl_cons] at hge ⊢
        rw [hstep, if_pos rfl]
        exact iherr hge
    · have hbig : dstBase ^ n ≤ valBE dstBase dst * wordBase + valBE srcBase ws := by
        have h1 : dstBase ^ n ≤ cout * dstBase ^ n :=
          Nat.le_mul_of_pos_left _ (by omega)
        omega
      have hF : dstBase ^ n ≤ List.foldl (fun x w => x * wordBase + valBE srcBase w)
          (valBE dstBase dst) (ws :: rest) := by
        simp only [List.foldl_cons]
        exact le_trans hbig
          (chunkFold_le srcBase wordBase hw rest (valBE dstBase dst * wordBase + valBE srcBase ws))
      constructor
      · intro hfit
        exfalso
        omega
      · intro _
        rw [hstep, if_neg hc0]

theorem getD_replicate_zero (n j : Nat) :
    (List.replicate n (0 : Nat)).getD j 0 = 0 := by
  rw [List.getD_eq_getElem?_getD]
  by_cases hj : j < n
  · rw [List.getElem?_eq_getElem (by simpa using hj)]
    simp
  · rw [List.getElem?_eq_none (by simpa using hj)]
    rfl

/-- `convertBase` on in-range digits whose value fits in the destination:
it succeeds and the result is the exact `dstSize`-digit representation. -/
theorem convertBase_ok (src : List Nat) (srcBase dstBase dstSize : Nat)
    (hs : 2 ≤ srcBase) (hs' : srcBase ≤ 256)
    (hd : 2 ≤ dstBase) (hd' : dstBase ≤ 256)
    (hsrc : ∀ d ∈ src, d < srcBase) (hn : 0 < dstSize)
    (hfit : valBE srcBase src < dstBase ^ dstSize) :
    ∃ dst, convertBase src srcBase dstBase dstSize = .ok dst ∧
      dst.length = dstSize ∧ (∀ d ∈ dst, d < dstBase) ∧
      valBE dstBase dst = valBE srcBase src := by
  have hbases : 2 ≤ srcBase ∧ srcBase ≤ 256 ∧ 2 ≤ dstBase ∧ dstBase ≤ 256 :=
    ⟨hs, hs', hd, hd'⟩
  rw [convertBase, if_neg (not_not_intro hbases)]
  obtain ⟨hwb, hpow, hwl⟩ := selectWord_spec srcBase dstBase hs' hd'
  by_cases hsrc0 : src.length = 0
  · have : src = [] := List.eq_nil_of_length_eq_zero hsrc0
    subst this
    simp only [List.length_nil, if_pos rfl]
    refine ⟨List.replicate dstSize 0, rfl, List.length_replicate dstSize 0, ?_, ?_⟩
    · intro d hdm
      rw [List.eq_of_mem_replicate hdm]
      omega
    · rw [valBE_replicate_zero]
      rfl
  · rw [if_neg hsrc0, if_neg (by omega)]
    obtain ⟨hfold, hmem⟩ :=
      srcChunks_fold srcBase (selectWord srcBase dstBase).1 hwl src
    have hw1 : 1 ≤ (selectWord srcBase dstBase).2 := by
      rw [hpow]
      exact Nat.one_le_pow _ _ (by omega)
    obtain ⟨ihok, _⟩ :=
      outerLoop_spec srcBase dstBase (selectWord srcBase dstBase).2 dstSize
        (by omega) hw1 hn (srcChunks (selectWord srcBase dstBase).1 src)
        (List.replicate dstSize 0) (dstSize - 1)
        (List.length_replicate dstSize 0)
        (fun d hdm => by rw [List.eq_of_mem_replicate hdm]; omega)
        (fun j _ => getD_replicate_zero dstSize j)
        (fun ws hws d hdm => hsrc d (hmem ws hws d hdm))
    rw [valBE_replicate_zero] at ihok
    have hfold' : List.foldl
        (fun x ws => x * (selectWord srcBase dstBase).2 + valBE srcBase ws) 0
        (srcChunks (selectWord srcBase dstBase).1 src) = valBE srcBase src := by
      rw [hpow]
      exact hfold
    rw [hfold'] at ihok
    obtain ⟨dst', h1, h2, h3, h4⟩ := ihok hfit
    exact ⟨dst', h1, h2, h3, h4⟩

/-- `convertBase` on in-range digits whose value does not fit: the
`assert(carry === 0, "too small dst")` check fails with an assertion
error. -/
theorem convertBase_overflow (src : List Nat) (srcBase dstBase dstSize : Nat)
    (hs : 2 ≤ srcBase) (hs' : srcBase ≤ 256)
    (hd : 2 ≤ dstBase) (hd' : dstBase ≤ 256)
    (hsrc : ∀ d ∈ src, d < srcBase) (hn : 0 < dstSize)
    (hbig : dstBase ^ dstSize ≤ valBE srcBase src) :
    convertBase src srcBase dstBase dstSize = .error .assertionError := by
  have hbases : 2 ≤ srcBase ∧ srcBase ≤ 256 ∧ 2 ≤ dstBase ∧ dstBase ≤ 256 :=
    ⟨hs, hs', hd, hd'⟩
  rw [convertBase, if_neg (not_not_intro hbases)]
  obtain ⟨hwb, hpow, hwl⟩ := selectWord_spec srcBase dstBase hs' hd'
  have hsrc0 : src.length ≠ 0 := by
    intro h0
    have : src = [] := List.eq_nil_of_length_eq_zero h0
    subst this
    have : 0 < dstBase ^ dstSize := Nat.pos_pow_of_pos dstSize (by omega)
    simp [valBE] at hbig
    omega
  rw [if_neg hsrc0, if_neg (by omega)]
  obtain ⟨hfold, hmem⟩ :=
    srcChunks_fold srcBase (selectWord srcBase dstBase).1 hwl src
  have hw1 : 1 ≤ (selectWord srcBase dstBase).2 := by
    rw [hpow]
    exact Nat.one_le_pow _ _ (by omega)
  obtain ⟨_, iherr⟩ :=
    outerLoop_spec srcBase dstBase (selectWord srcBase dstBase).2 dstSize
      (by omega) hw1 hn (srcChunks (selectWord srcBase dstBase).1 src)
      (List.replicate dstSize 0) (dstSize - 1)
      (List.length_replicate dstSize 0)
      (fun d hdm => by rw [List.eq_of_mem_replicate hdm]; omega)
      (fun j _ => getD_replicate_zero dstSize j)
      (fun ws hws d hdm => hsrc d (hmem ws hws d hdm))
  rw [valBE_replicate_zero] at iherr
  apply iherr
  rw [← hpow] at hfold
  rw [hfold]
  exact hbig

/-! ## Decoders, encoders, and the lexicographic order -/

theorem charAt_of_lt (alphabet : List Char) (e : Nat) (h : e < alphabet.length) :
    charAt alphabet e = [alphaChar alphabet e] := by
  rw [charAt, dif_pos h, alphaChar, List.getD_eq_getElem _ _ h]
  rfl

theorem encodeRaw_eq_map (alphabet : List Char) (dv : List Nat)
    (h : ∀ e ∈ dv, e < alphabet.length) :
    encodeRaw alphabet dv = dv.map (alphaChar alphabet) := by
  induction dv with
  | nil => rfl
  | cons e es ih =>
    have he : e < alphabet.length := h e (List.mem_cons_self e es)
    have ih' := ih (fun x hx => h x (List.mem_cons_of_mem e hx))
    rw [encodeRaw] at ih' ⊢
    simp only [List.map_cons, List.flatten_cons, ih', charAt_of_lt alphabet e he]
    rfl

theorem buildBase36_ok (dv : List Nat) (h : ∀ e ∈ dv, e < 36) :
    Uuid25.buildBase36 dv = .ok (dv.map (alphaChar base36Digits)) := by
  induction dv with
  | nil => rfl
  | cons e es ih =>
    have he : e < 36 := h e (List.mem_cons_self e es)
    have hlen : base36Digits.length = 36 := rfl
    rw [Uuid25.buildBase36, if_pos (by omega),
      ih (fun x hx => h x (List.mem_cons_of_mem e hx)),
      charAt_of_lt base36Digits e (by omega)]
    rfl

theorem decodeDigitList_ok (base : Nat) (s : List Char)
    (h : ∀ c ∈ s, DECODE_MAP c.toNat < base) :
    decodeDigitList base s = .ok (s.map fun c => DECODE_MAP c.toNat) := by
  induction s with
  | nil => rfl
  | cons c cs ih =>
    rw [decodeDigitList]
    simp only [if_pos (h c (List.mem_cons_self c cs)),
      ih (fun x hx => h x (List.mem_cons_of_mem c hx)), List.map_cons]

theorem decodeDigitList_err (base : Nat) :
    ∀ (s : List Char), (∃ c ∈ s, base ≤ DECODE_MAP c.toNat) →
      decodeDigitList base s = .error .assertionError := by
  intro s
  induction s with
  | nil => rintro ⟨c, hc, -⟩; cases hc
  | cons c cs ih =>
    rintro ⟨x, hx, hxv⟩
    rw [decodeDigitList]
    by_cases hc : DECODE_MAP c.toNat < base
    · rw [if_pos hc]
      have hxcs : x ∈ cs := by
        rcases List.mem_cons.mp hx with h | h
        · subst h; omega
        · exact h
      rw [ih ⟨x, hxcs, hxv⟩]
    · rw [if_neg hc]

theorem decodeCrockfordList_ok (s : List Char)
    (h : ∀ c ∈ s, CROCKFORD_DECODE_MAP c.toNat < 32) :
    decodeCrockfordList s = .ok (s.map fun c => CROCKFORD_DECODE_MAP c.toNat) := by
  induction s with
  | nil => rfl
  | cons c cs ih =>
    rw [decodeCrockfordList]
    simp only [if_pos (h c (List.mem_cons_self c cs)),
      ih (fun x hx => h x (List.mem_cons_of_mem c hx)), List.map_cons]

theorem decodeCrockfordList_err :
    ∀ (s : List Char), (∃ c ∈ s, 32 ≤ CROCKFORD_DECODE_MAP c.toNat) →
      decodeCrockfordList s = .error .assertionError := by
  intro s
  induction s with
  | nil => rintro ⟨c, hc, -⟩; cases hc
  | cons c cs ih =>
    rintro ⟨x, hx, hxv⟩
    rw [decodeCrockfordList]
    by_cases hc : CROCKFORD_DECODE_MAP c.toNat < 32
    · rw [if_pos hc]
      have hxcs : x ∈ cs := by
        rcases List.mem_cons.mp hx with h | h
        · subst h; omega
        · exact h
      rw [ih ⟨x, hxcs, hxv⟩]
    · rw [if_neg hc]

/-- Decoding inverts encoding on base-36 digit values. -/
theorem decode_alpha36 : ∀ e, e < 36 →
    DECODE_MAP (alphaChar base36Digits e).toNat = e := by decide

theorem alpha36_lower36 : ∀ e, e < 36 →
    isLower36Char (alphaChar base36Digits e) = true := by decide

/-- Decoding inverts encoding on base-16 digit values. -/
theorem decode_alphaHex : ∀ e, e < 16 →
    DECODE_MAP (alphaChar hexDigits e).toNat = e := by decide

theorem alphaHex_lower : ∀ e, e < 16 →
    isLowerHexChar (alphaChar hexDigits e) = true := by decide

theorem alphaHex_ci : ∀ e, e < 16 →
    isHexDigitCI (alphaChar hexDigits e) = true := by decide

/-- Decoding inverts encoding on Crockford base-32 digit values. -/
theorem decode_alphaCrockford : ∀ e, e < 32 →
    CROCKFORD_DECODE_MAP (alphaChar crockfordDigits e).toNat = e := by decide

theorem alphaCrockford_alnum : ∀ e, e < 32 →
    isAsciiAlnum (alphaChar crockfordDigits e) = true := by decide

theorem decodeMap_lt_36 (c : Char) (h : isLower36Char c = true) :
    DECODE_MAP c.toNat < 36 := by
  rw [isLower36Char, decide_eq_true_eq] at h
  rw [DECODE_MAP]
  split_ifs <;> omega

theorem decodeMap_lt_16 (c : Char) (h : isHexDigitCI c = true) :
    DECODE_MAP c.toNat < 16 := by
  rw [isHexDigitCI, decide_eq_true_eq] at h
  rw [DECODE_MAP]
  split_ifs <;> omega

/-- On the lowercase base-36 alphabet, the code-unit order agrees with
the digit-value order. -/
theorem decodeMap_lt_iff (c d : Char) (hc : isLower36Char c = true)
    (hd : isLower36Char d = true) :
    (c.toNat < d.toNat ↔ DECODE_MAP c.toNat < DECODE_MAP d.toNat) := by
  rw [isLower36Char, decide_eq_true_eq] at hc hd
  rw [DECODE_MAP, DECODE_MAP]
  split_ifs <;> omega

theorem jsLt_iff_val (s t : List Char) (hs : ∀ c ∈ s, isLower36Char c = true)
    (ht : ∀ c ∈ t, isLower36Char c = true) (hlen : s.length = t.length) :
    (jsLt s t = true) ↔ valBE 36 (decode36 s) < valBE 36 (decode36 t) := by
  induction s generalizing t with
  | nil =>
    cases t with
    | nil => simp [jsLt, decode36, valBE]
    | cons b bs => simp at hlen
  | cons a as ih =>
    cases t with
    | nil => simp at hlen
    | cons b bs =>
      have ha := hs a (List.mem_cons_self a as)
      have hb := ht b (List.mem_cons_self b bs)
      have has : ∀ c ∈ as, isLower36Char c = true :=
        fun c hc => hs c (List.mem_cons_of_mem a hc)
      have hbs : ∀ c ∈ bs, isLower36Char c = true :=
        fun c hc => ht c (List.mem_cons_of_mem b hc)
      have hlen' : as.length = bs.length := by simpa using hlen
      have hvas : valBE 36 (decode36 as) < 36 ^ as.length := by
        have := valBE_lt 36 (decode36 as) (by
          intro x hx
          obtain ⟨c, hc, rfl⟩ := List.mem_map.mp hx
          exact decodeMap_lt_36 c (has c hc))
        simpa [decode36] using this
      have hvbs : valBE 36 (decode36 bs) < 36 ^ bs.length := by
        have := valBE_lt 36 (decode36 bs) (by
          intro x hx
          obtain ⟨c, hc, rfl⟩ := List.mem_map.mp hx
          exact decodeMap_lt_36 c (hbs c hc))
        simpa [decode36] using this
      have hcons : decode36 (a :: as) = DECODE_MAP a.toNat :: decode36 as := rfl
      have hconsb : decode36 (b :: bs) = DECODE_MAP b.toNat :: decode36 bs := rfl
      rw [hcons, hconsb, valBE_cons, valBE_cons]
      have hlend : (decode36 as).length = as.length := by simp [decode36]
      have hlendb : (decode36 bs).length = bs.length := by simp [decode36]
      rw [hlend, hlendb, ← hlen']
      rw [jsLt]
      by_cases hab : a.toNat < b.toNat
      · rw [if_pos hab]
        have hdab : DECODE_MAP a.toNat < DECODE_MAP b.toNat :=
          (decodeMap_lt_iff a b ha hb).mp hab
        simp only [true_iff]
        calc DECODE_MAP a.toNat * 36 ^ as.length + valBE 36 (decode36 as)
            < DECODE_MAP a.toNat * 36 ^ as.length + 36 ^ as.length := by omega
          _ = (DECODE_MAP a.toNat + 1) * 36 ^ as.length := by ring
          _ ≤ DECODE_MAP b.toNat * 36 ^ as.length :=
            Nat.mul_le_mul_right _ (by omega)
          _ ≤ DECODE_MAP b.toNat * 36 ^ as.length + valBE 36 (decode36 bs) :=
            Nat.le_add_right _ _
      · rw [if_neg hab]
        by_cases hba : b.toNat < a.toNat
        · rw [if_pos hba]
          have hdba : DECODE_MAP b.toNat < DECODE_MAP a.toNat :=
            (decodeMap_lt_iff b a hb ha).mp hba
          simp only [Bool.false_eq_true, false_iff, not_lt]
          apply le_of_lt
          calc DECODE_MAP b.toNat * 36 ^ as.length + valBE 36 (decode36 bs)
              < DECODE_MAP b.toNat * 36 ^ as.length + 36 ^ as.length := by
                rw [← hlen'] at hvbs
                omega
            _ = (DECODE_MAP b.toNat + 1) * 36 ^ as.length := by ring
            _ ≤ DECODE_MAP a.toNat * 36 ^ as.length :=
              Nat.mul_le_mul_right _ (by omega)
            _ ≤ DECODE_MAP a.toNat * 36 ^ as.length + valBE 36 (decode36 as) :=
              Nat.le_add_right _ _
        · rw [if_neg hba]
          have heq : a.toNat = b.toNat := by omega
          rw [heq, ih bs has hbs hlen']
          omega

theorem jsLe_iff_val (s t : List Char) (hs : ∀ c ∈ s, isLower36Char c = true)
    (ht : ∀ c ∈ t, isLower36Char c = true) (hlen : s.length = t.length) :
    (jsLe s t = true) ↔ valBE 36 (decode36 s) ≤ valBE 36 (decode36 t) := by
  rw [jsLe, Bool.not_eq_true']
  constructor
  · intro h
    by_contra hlt
    push_neg at hlt
    have := (jsLt_iff_val t s ht hs hlen.symm).mpr hlt
    rw [this] at h
    cases h
  · intro h
    cases hjs : jsLt t s with
    | false => rfl
    | true =>
      have := (jsLt_iff_val t s ht hs hlen.symm).mp hjs
      omega

theorem MAX_length : Uuid25.MAX.length = 25 := by decide

theorem MAX_lower36 : ∀ c ∈ Uuid25.MAX, isLower36Char c = true := by decide

/-- `"f5lxx1zz5pnorynqglhzmsp33"` reads as 2^128 − 1 in base 36. -/
theorem MAX_val : valBE 36 (decode36 Uuid25.MAX) = 2 ^ 128 - 1 := by decide

theorem decode36_map_alpha (dv : List Nat) (h : ∀ e ∈ dv, e < 36) :
    decode36 (dv.map (alphaChar base36Digits)) = dv := by
  rw [decode36, List.map_map]
  conv_rhs => rw [← List.map_id dv]
  apply List.map_congr_left
  intro e he
  simp only [Function.comp_apply, id]
  exact decode_alpha36 e (h e he)

theorem lower36_map_alpha (dv : List Nat) (h : ∀ e ∈ dv, e < 36) :
    ∀ c ∈ dv.map (alphaChar base36Digits), isLower36Char c = true := by
  intro c hc
  obtain ⟨e, he, rfl⟩ := List.mem_map.mp hc
  exact alpha36_lower36 e (h e he)

theorem canonical_val_le (s : List Char) (h : canonicalValue s) :
    valBE 36 (decode36 s) ≤ 2 ^ 128 - 1 := by
  obtain ⟨hlen, hlow, hle⟩ := h
  rw [← MAX_val]
  exact (jsLe_iff_val s Uuid25.MAX hlow MAX_lower36
    (by rw [hlen, MAX_length])).mp hle

/-- `fromDigitValues` on a well-formed digit array: constructs the
canonical string when the value is within the 128-bit bound, fails the
`"128-bit overflow"` assertion otherwise. -/
theorem fromDigitValues_spec (dv : List Nat) (hlen : dv.length = 25)
    (hdig : ∀ e ∈ dv, e < 36) :
    (valBE 36 dv ≤ 2 ^ 128 - 1 →
      Uuid25.fromDigitValues dv = .ok ⟨dv.map (alphaChar base36Digits)⟩) ∧
    (2 ^ 128 - 1 < valBE 36 dv →
      Uuid25.fromDigitValues dv = .error .assertionError) := by
  have hred : Uuid25.fromDigitValues dv =
      (if jsLe (dv.map (alphaChar base36Digits)) Uuid25.MAX then
        .ok ⟨dv.map (alphaChar base36Digits)⟩
      else .error .assertionError) := by
    rw [Uuid25.fromDigitValues, if_neg (by omega), buildBase36_ok dv hdig]
  have hle : (jsLe (dv.map (alphaChar base36Digits)) Uuid25.MAX = true)
      ↔ valBE 36 dv ≤ 2 ^ 128 - 1 := by
    rw [jsLe_iff_val _ _ (lower36_map_alpha dv hdig) MAX_lower36
        (by rw [List.length_map, hlen, MAX_length]),
      decode36_map_alpha dv hdig, MAX_val]
  constructor
  · intro hv
    rw [hred, if_pos (hle.mpr hv)]
  · intro hv
    rw [hred, if_neg]
    intro hc
    have := hle.mp hc
    omega

theorem buildBase36_err :
    ∀ (dv : List Nat), (∃ e ∈ dv, 36 ≤ e) →
      Uuid25.buildBase36 dv = .error .assertionError := by
  intro dv
  induction dv with
  | nil => rintro ⟨e, he, -⟩; cases he
  | cons x xs ih =>
    rintro ⟨e, he, hge⟩
    rw [Uuid25.buildBase36]
    by_cases hx : x < base36Digits.length
    · rw [if_pos hx]
      have hxs : e ∈ xs := by
        rcases List.mem_cons.mp he with hh | hh
        · subst hh
          exact absurd hx (by simpa using hge)
        · exact hh
      rw [ih ⟨e, hxs, hge⟩]
    · rw [if_neg hx]

/-- The string built by `fromDigitValues` satisfies the canonical
invariant. -/
theorem fromDigitValues_canonical (dv : List Nat) (u : Uuid25)
    (h : Uuid25.fromDigitValues dv = .ok u) :
    canonicalValue u.value ∧ decode36 u.value = dv := by
  rw [Uuid25.fromDigitValues] at h
  by_cases hlen : dv.length ≠ 25
  · rw [if_pos hlen] at h
    cases h
  · rw [if_neg hlen] at h
    push_neg at hlen
    by_cases hdig : ∀ e ∈ dv, e < 36
    · rw [buildBase36_ok dv hdig] at h
      simp only [] at h
      by_cases hle : jsLe (dv.map (alphaChar base36Digits)) Uuid25.MAX
      · rw [if_pos hle] at h
        have hu : u = ⟨dv.map (alphaChar base36Digits)⟩ := by
          cases h
          rfl
        subst hu
        refine ⟨⟨?_, lower36_map_alpha dv hdig, hle⟩, decode36_map_alpha dv hdig⟩
        rw [List.length_map, hlen]
      · rw [if_neg hle] at h
        cases h
    · exfalso
      push_neg at hdig
      obtain ⟨e, he, hge⟩ := hdig
      rw [buildBase36_err dv ⟨e, he, hge⟩] at h
      cases h

/-! ## Character case lemmas -/

theorem toNat_ofNat_valid (n : Nat) (h : n.isValidChar) :
    (Char.ofNat n).toNat = n := by
  rw [Char.ofNat, dif_pos h]
  rfl

theorem toNat_toLowerAscii (c : Char) :
    (toLowerAscii c).toNat = lowerCode c.toNat := by
  rw [toLowerAscii, lowerCode]
  split_ifs with h
  · exact toNat_ofNat_valid _ (Or.inl (by omega))
  · rw [Char.ofNat_toNat]

theorem toNat_toUpperAscii (c : Char) :
    (toUpperAscii c).toNat = upperCode c.toNat := by
  rw [toUpperAscii, upperCode]
  split_ifs with h
  · exact toNat_ofNat_valid _ (Or.inl (by omega))
  · rw [Char.ofNat_toNat]

theorem alnum_toLower_lower36 (c : Char) (h : isAsciiAlnum c = true) :
    isLower36Char (toLowerAscii c) = true := by
  rw [isAsciiAlnum, decide_eq_true_eq] at h
  rw [isLower36Char, decide_eq_true_eq, toNat_toLowerAscii, lowerCode]
  split_ifs <;> omega

theorem lower36_alnum (c : Char) (h : isLower36Char c = true) :
    isAsciiAlnum c = true := by
  rw [isLower36Char, decide_eq_true_eq] at h
  rw [isAsciiAlnum, decide_eq_true_eq]
  omega

theorem lower36_toLower_fix (c : Char) (h : isLower36Char c = true) :
    toLowerAscii c = c := by
  rw [isLower36Char, decide_eq_true_eq] at h
  have : lowerCode c.toNat = c.toNat := by
    rw [lowerCode]
    split_ifs with h'
    · omega
    · rfl
  rw [toLowerAscii, this, Char.ofNat_toNat]

/-! ## Power facts for the six conversions -/

theorem pow_fact_256 : (256 : Nat) ^ 16 = 2 ^ 128 := by norm_num

theorem pow_fact_16 : (16 : Nat) ^ 32 = 2 ^ 128 := by norm_num

theorem pow_fact_32 : (32 : Nat) ^ 26 = 2 ^ 130 := by norm_num

theorem pow_fact_36 : 2 ^ 128 ≤ 36 ^ 25 := by norm_num

/-! ## Decoding the canonical string -/

theorem decodeDigitChars_lower36 (s : List Char)
    (h : ∀ c ∈ s, isLower36Char c = true) :
    decodeDigitChars s 36 = .ok (decode36 s) := by
  rw [decodeDigitChars, if_neg (by norm_num)]
  exact decodeDigitList_ok 36 s (fun c hc => decodeMap_lt_36 c (h c hc))

theorem decodeDigitChars_hex (s : List Char)
    (h : ∀ c ∈ s, isHexDigitCI c = true) :
    decodeDigitChars s 16 = .ok (s.map fun c => DECODE_MAP c.toNat) := by
  rw [decodeDigitChars, if_neg (by norm_num)]
  exact decodeDigitList_ok 16 s (fun c hc => decodeMap_lt_16 c (h c hc))

/-! ## `fromBytes` and `toBytes` -/

theorem fromBytes_spec (b : List Nat) (hlen : b.length = 16)
    (hb : ∀ d ∈ b, d < 256) :
    ∃ u : Uuid25, Uuid25.fromBytes b = .ok u ∧ canonicalValue u.value ∧
      valBE 36 (decode36 u.value) = valBE 256 b := by
  have hval : valBE 256 b < 2 ^ 128 := by
    have := valBE_lt 256 b hb
    rw [hlen, pow_fact_256] at this
    exact this
  have hfit : valBE 256 b < 36 ^ 25 := lt_of_lt_of_le hval pow_fact_36
  obtain ⟨dv, hcv, hdvlen, hdvdig, hdvval⟩ :=
    convertBase_ok b 256 36 25 (by norm_num) (by norm_num) (by norm_num)
      (by norm_num) hb (by norm_num) hfit
  rw [Uuid25.fromBytes, if_neg (by omega), hcv]
  simp only []
  obtain ⟨hok, _⟩ := fromDigitValues_spec dv hdvlen hdvdig
  have hb128 : valBE 36 dv ≤ 2 ^ 128 - 1 := by omega
  rw [hok hb128]
  obtain ⟨hcanon, hdec⟩ := fromDigitValues_canonical dv _ (hok hb128)
  exact ⟨_, rfl, hcanon, by rw [hdec, hdvval]⟩

theorem toBytes_spec (u : Uuid25) (h : canonicalValue u.value) :
    ∃ b, Uuid25.toBytes u = .ok b ∧ b.length = 16 ∧ (∀ d ∈ b, d < 256) ∧
      valBE 256 b = valBE 36 (decode36 u.value) := by
  rw [Uuid25.toBytes, decodeDigitChars_lower36 u.value h.2.1]
  simp only []
  have hdig : ∀ d ∈ decode36 u.value, d < 36 := by
    intro d hd
    obtain ⟨c, hc, rfl⟩ := List.mem_map.mp hd
    exact decodeMap_lt_36 c (h.2.1 c hc)
  have hval : valBE 36 (decode36 u.value) < 256 ^ 16 := by
    rw [pow_fact_256]
    have := canonical_val_le u.value h
    omega
  obtain ⟨b, hcv, hblen, hbdig, hbval⟩ :=
    convertBase_ok (decode36 u.value) 36 256 16 (by norm_num) (by norm_num)
      (by norm_num) (by norm_num) hdig (by norm_num) hval
  rw [hcv]
  exact ⟨b, rfl, hblen, hbdig, hbval⟩

/-! ## The canonical parser -/

theorem map_toLower_fix (s : List Char) (h : ∀ c ∈ s, isLower36Char c = true) :
    s.map toLowerAscii = s := by
  conv_rhs => rw [← List.map_id s]
  apply List.map_congr_left
  intro c hc
  simp only [id]
  exact lower36_toLower_fix c (h c hc)

theorem parseUuid25_of_canonical (s : List Char) (h : canonicalValue s) :
    Uuid25.parseUuid25 s = .ok ⟨s⟩ := by
  obtain ⟨hlen, hlow, hle⟩ := h
  rw [Uuid25.parseUuid25,
    if_pos ⟨hlen, List.all_eq_true.mpr (fun c hc => lower36_alnum c (hlow c hc))⟩]
  simp only [map_toLower_fix s hlow]
  rw [if_pos hle]

theorem parseUuid25_ok_char (s : List Char) (u : Uuid25)
    (h : Uuid25.parseUuid25 s = .ok u) :
    s.length = 25 ∧ (∀ c ∈ s, isAsciiAlnum c = true) ∧
      u.value = s.map toLowerAscii ∧ canonicalValue u.value := by
  rw [Uuid25.parseUuid25] at h
  by_cases hcond : s.length = 25 ∧ s.all isAsciiAlnum
  · rw [if_pos hcond] at h
    simp only [] at h
    by_cases hle : jsLe (s.map toLowerAscii) Uuid25.MAX
    · rw [if_pos hle] at h
      have hu : u = ⟨s.map toLowerAscii⟩ := by cases h; rfl
      subst hu
      have halnum : ∀ c ∈ s, isAsciiAlnum c = true :=
        List.all_eq_true.mp hcond.2
      refine ⟨hcond.1, halnum, rfl, ?_, ?_, hle⟩
      · rw [List.length_map, hcond.1]
      · intro c hc
        obtain ⟨d, hd, rfl⟩ := List.mem_map.mp hc
        exact alnum_toLower_lower36 d (halnum d hd)
    · rw [if_neg hle] at h
      cases h
  · rw [if_neg hcond] at h
    cases h

theorem parseUuid25_err_gt (s : List Char) (hlen : s.length = 25)
    (halnum : ∀ c ∈ s, isAsciiAlnum c = true)
    (hgt : ¬ (jsLe (s.map toLowerAscii) Uuid25.MAX = true)) :
    Uuid25.parseUuid25 s = .error .syntaxError := by
  rw [Uuid25.parseUuid25, if_pos ⟨hlen, List.all_eq_true.mpr halnum⟩]
  simp only []
  rw [if_neg hgt]

/-! ## Dispatch by length -/

theorem parse_len25 (s : List Char) (h : s.length = 25) :
    Uuid25.parse s = Uuid25.parseUuid25 s := by
  rw [Uuid25.parse, if_pos h]

theorem parse_len26 (s : List Char) (h : s.length = 26) :
    Uuid25.parse s = Uuid25.parseCrockford s := by
  rw [Uuid25.parse, if_neg (by omega), if_pos h]

theorem parse_len32 (s : List Char) (h : s.length = 32) :
    Uuid25.parse s = Uuid25.parseHex s := by
  rw [Uuid25.parse, if_neg (by omega), if_neg (by omega), if_pos h]

theorem parse_len36 (s : List Char) (h : s.length = 36) :
    Uuid25.parse s = Uuid25.parseHyphenated s := by
  rw [Uuid25.parse, if_neg (by omega), if_neg (by omega), if_neg (by omega),
    if_pos h]

theorem parse_len38 (s : List Char) (h : s.length = 38) :
    Uuid25.parse s = Uuid25.parseBraced s := by
  rw [Uuid25.parse, if_neg (by omega), if_neg (by omega), if_neg (by omega),
    if_neg (by omega), if_pos h]

theorem parse_len45 (s : List Char) (h : s.length = 45) :
    Uuid25.parse s = Uuid25.parseUrn s := by
  rw [Uuid25.parse, if_neg (by omega), if_neg (by omega), if_neg (by omega),
    if_neg (by omega), if_neg (by omega), if_pos h]

theorem parse_len_other (s : List Char)
    (h : s.length ≠ 25 ∧ s.length ≠ 26 ∧ s.length ≠ 32 ∧ s.length ≠ 36 ∧
      s.length ≠ 38 ∧ s.length ≠ 45) :
    Uuid25.parse s = .error .syntaxError := by
  rw [Uuid25.parse, if_neg (by omega), if_neg (by omega), if_neg (by omega),
    if_neg (by omega), if_neg (by omega), if_neg (by omega)]

/-! ## Uniqueness of the canonical string -/

theorem lower36_decode_inj (c d : Char) (hc : isLower36Char c = true)
    (hd : isLower36Char d = true)
    (h : DECODE_MAP c.toNat = DECODE_MAP d.toNat) : c = d := by
  have htoNat : c.toNat = d.toNat := by
    rcases Nat.lt_trichotomy c.toNat d.toNat with hlt | heq | hlt
    · have := (decodeMap_lt_iff c d hc hd).mp hlt
      omega
    · exact heq
    · have := (decodeMap_lt_iff d c hd hc).mp hlt
      omega
  calc c = Char.ofNat c.toNat := (Char.ofNat_toNat c).symm
  _ = Char.ofNat d.toNat := by rw [htoNat]
  _ = d := Char.ofNat_toNat d

theorem lower36_str_inj : ∀ (s t : List Char),
    (∀ c ∈ s, isLower36Char c = true) → (∀ c ∈ t, isLower36Char c = true) →
    decode36 s = decode36 t → s = t := by
  intro s
  induction s with
  | nil =>
    intro t _ _ h
    cases t with
    | nil => rfl
    | cons b bs => simp [decode36] at h
  | cons a as ih =>
    intro t hs ht h
    cases t with
    | nil => simp [decode36] at h
    | cons b bs =>
      simp only [decode36, List.map_cons, List.cons.injEq] at h
      have hab : a = b :=
        lower36_decode_inj a b (hs a (List.mem_cons_self a as))
          (ht b (List.mem_cons_self b bs)) h.1
      have htail : as = bs :=
        ih bs (fun c hc => hs c (List.mem_cons_of_mem a hc))
          (fun c hc => ht c (List.mem_cons_of_mem b hc)) h.2
      rw [hab, htail]

theorem canonical_unique (s t : List Char) (hs : canonicalValue s)
    (ht : canonicalValue t)
    (hval : valBE 36 (decode36 s) = valBE 36 (decode36 t)) : s = t := by
  apply lower36_str_inj s t hs.2.1 ht.2.1
  apply valBE_inj 36 (decode36 s) (decode36 t)
  · intro d hd
    obtain ⟨c, hc, rfl⟩ := List.mem_map.mp hd
    exact decodeMap_lt_36 c (hs.2.1 c hc)
  · intro d hd
    obtain ⟨c, hc, rfl⟩ := List.mem_map.mp hd
    exact decodeMap_lt_36 c (ht.2.1 c hc)
  · simp only [decode36, List.length_map]
    rw [hs.1, ht.1]
  · exact hval

/-! ## The shared hexadecimal path -/

theorem lowerHex_ci (c : Char) (h : isLowerHexChar c = true) :
    isHexDigitCI c = true := by
  rw [isLowerHexChar, decide_eq_true_eq] at h
  rw [isHexDigitCI, decide_eq_true_eq]
  omega

theorem decodeHex_map_alpha (dv : List Nat) (h : ∀ e ∈ dv, e < 16) :
    (dv.map (alphaChar hexDigits)).map (fun c => DECODE_MAP c.toNat) = dv := by
  rw [List.map_map]
  conv_rhs => rw [← List.map_id dv]
  apply List.map_congr_left
  intro e he
  simp only [Function.comp_apply, id]
  exact decode_alphaHex e (h e he)

theorem parseHexImpl_spec (s : List Char) (hlen : s.length = 32)
    (hhex : ∀ c ∈ s, isHexDigitCI c = true) :
    ∃ u, Uuid25.parseHexImpl (some s) = .ok u ∧ canonicalValue u.value ∧
      valBE 36 (decode36 u.value)
        = valBE 16 (s.map fun c => DECODE_MAP c.toNat) := by
  rw [Uuid25.parseHexImpl, decodeDigitChars_hex s hhex]
  simp only []
  have hdig : ∀ d ∈ (s.map fun c => DECODE_MAP c.toNat), d < 16 := by
    intro d hd
    obtain ⟨c, hc, rfl⟩ := List.mem_map.mp hd
    exact decodeMap_lt_16 c (hhex c hc)
  have hval16 : valBE 16 (s.map fun c => DECODE_MAP c.toNat) < 2 ^ 128 := by
    have := valBE_lt 16 _ hdig
    rw [List.length_map, hlen, pow_fact_16] at this
    exact this
  have hfit : valBE 16 (s.map fun c => DECODE_MAP c.toNat) < 36 ^ 25 :=
    lt_of_lt_of_le hval16 pow_fact_36
  obtain ⟨dv, hcv, hdvlen, hdvdig, hdvval⟩ :=
    convertBase_ok _ 16 36 25 (by norm_num) (by norm_num) (by norm_num)
      (by norm_num) hdig (by norm_num) hfit
  rw [hcv]
  simp only []
  obtain ⟨hok, _⟩ := fromDigitValues_spec dv hdvlen hdvdig
  have hb128 : valBE 36 dv ≤ 2 ^ 128 - 1 := by omega
  rw [hok hb128]
  obtain ⟨hcanon, hdec⟩ := fromDigitValues_canonical dv _ (hok hb128)
  exact ⟨_, rfl, hcanon, by rw [hdec, hdvval]⟩

theorem toHex_spec (u : Uuid25) (h : canonicalValue u.value) :
    ∃ hx, Uuid25.toHex u = .ok hx ∧ hx.length = 32 ∧
      (∀ c ∈ hx, isLowerHexChar c = true) ∧
      valBE 16 (hx.map fun c => DECODE_MAP c.toNat)
        = valBE 36 (decode36 u.value) := by
  rw [Uuid25.toHex, decodeDigitChars_lower36 u.value h.2.1]
  simp only []
  have hdig : ∀ d ∈ decode36 u.value, d < 36 := by
    intro d hd
    obtain ⟨c, hc, rfl⟩ := List.mem_map.mp hd
    exact decodeMap_lt_36 c (h.2.1 c hc)
  have hval : valBE 36 (decode36 u.value) < 16 ^ 32 := by
    rw [pow_fact_16]
    have := canonical_val_le u.value h
    omega
  obtain ⟨dv16, hcv, hlen16, hdig16, hval16⟩ :=
    convertBase_ok (decode36 u.value) 36 16 32 (by norm_num) (by norm_num)
      (by norm_num) (by norm_num) hdig (by norm_num) hval
  rw [hcv]
  simp only []
  have hraw : encodeRaw hexDigits dv16 = dv16.map (alphaChar hexDigits) :=
    encodeRaw_eq_map hexDigits dv16 (fun e he => hdig16 e he)
  refine ⟨encodeRaw hexDigits dv16, rfl, ?_, ?_, ?_⟩
  · rw [hraw, List.length_map, hlen16]
  · intro c hc
    rw [hraw] at hc
    obtain ⟨e, he, rfl⟩ := List.mem_map.mp hc
    exact alphaHex_lower e (hdig16 e he)
  · rw [hraw, decodeHex_map_alpha dv16 hdig16, hval16]

/-! ## Matching the hyphenated formats -/

theorem takeGroup_append (p : Char → Bool) :
    ∀ (g rest : List Char), (∀ c ∈ g, p c = true) →
      takeGroup p g.length (g ++ rest) = some (g, rest) := by
  intro g
  induction g with
  | nil => intro rest _; rfl
  | cons c cs ih =>
    intro rest h
    rw [List.length_cons, List.cons_append, takeGroup,
      if_pos (h c (List.mem_cons_self c cs)),
      ih rest (fun x hx => h x (List.mem_cons_of_mem c hx))]

theorem expectChar_cons (c : Char) (rest : List Char) :
    expectChar c (c :: rest) = some rest := by
  rw [expectChar, if_pos rfl]

theorem expectLitCI_append :
    ∀ (p rest : List Char), (∀ c ∈ p, toLowerAscii c = c) →
      expectLitCI p (p ++ rest) = some rest := by
  intro p
  induction p with
  | nil => intro rest _; rfl
  | cons c cs ih =>
    intro rest h
    rw [List.cons_append, expectLitCI,
      if_pos (h c (List.mem_cons_self c cs)),
      ih rest (fun x hx => h x (List.mem_cons_of_mem c hx))]

theorem matchHyphenBody_append (a b c d e rest : List Char)
    (ha : a.length = 8) (hb : b.length = 4) (hc : c.length = 4)
    (hd : d.length = 4) (he : e.length = 12)
    (hah : ∀ x ∈ a, isHexDigitCI x = true)
    (hbh : ∀ x ∈ b, isHexDigitCI x = true)
    (hch : ∀ x ∈ c, isHexDigitCI x = true)
    (hdh : ∀ x ∈ d, isHexDigitCI x = true)
    (heh : ∀ x ∈ e, isHexDigitCI x = true) :
    matchHyphenBody (a ++ '-' :: b ++ '-' :: c ++ '-' :: d ++ '-' :: e ++ rest)
      = some (a ++ b ++ c ++ d ++ e, rest) := by
  have h8 := takeGroup_append isHexDigitCI a
    ('-' :: b ++ '-' :: c ++ '-' :: d ++ '-' :: e ++ rest) hah
  rw [ha] at h8
  have h4b := takeGroup_append isHexDigitCI b
    ('-' :: c ++ '-' :: d ++ '-' :: e ++ rest) hbh
  rw [hb] at h4b
  have h4c := takeGroup_append isHexDigitCI c
    ('-' :: d ++ '-' :: e ++ rest) hch
  rw [hc] at h4c
  have h4d := takeGroup_append isHexDigitCI d ('-' :: e ++ rest) hdh
  rw [hd] at h4d
  have h12 := takeGroup_append isHexDigitCI e rest heh
  rw [he] at h12
  rw [matchHyphenBody]
  simp only [List.cons_append, List.append_assoc] at h8 h4b h4c h4d h12 ⊢
  simp only [h8, expectChar_cons, h4b, h4c, h4d, h12]

theorem matchHyphenated_format (a b c d e : List Char)
    (ha : a.length = 8) (hb : b.length = 4) (hc : c.length = 4)
    (hd : d.length = 4) (he : e.length = 12)
    (hah : ∀ x ∈ a, isHexDigitCI x = true)
    (hbh : ∀ x ∈ b, isHexDigitCI x = true)
    (hch : ∀ x ∈ c, isHexDigitCI x = true)
    (hdh : ∀ x ∈ d, isHexDigitCI x = true)
    (heh : ∀ x ∈ e, isHexDigitCI x = true) :
    matchHyphenated (a ++ '-' :: b ++ '-' :: c ++ '-' :: d ++ '-' :: e)
      = some (a ++ b ++ c ++ d ++ e) := by
  have hbody := matchHyphenBody_append a b c d e [] ha hb hc hd he
    hah hbh hch hdh heh
  rw [List.append_nil] at hbody
  rw [matchHyphenated, hbody]
  simp

theorem matchBraced_format (a b c d e : List Char)
    (ha : a.length = 8) (hb : b.length = 4) (hc : c.length = 4)
    (hd : d.length = 4) (he : e.length = 12)
    (hah : ∀ x ∈ a, isHexDigitCI x = true)
    (hbh : ∀ x ∈ b, isHexDigitCI x = true)
    (hch : ∀ x ∈ c, isHexDigitCI x = true)
    (hdh : ∀ x ∈ d, isHexDigitCI x = true)
    (heh : ∀ x ∈ e, isHexDigitCI x = true) :
    matchBraced (braceOpen :: (a ++ '-' :: b ++ '-' :: c ++ '-' :: d ++ '-' :: e) ++ [braceClose])
      = some (a ++ b ++ c ++ d ++ e) := by
  have hbody := matchHyphenBody_append a b c d e [braceClose] ha hb hc hd he
    hah hbh hch hdh heh
  rw [matchBraced, List.cons_append, expectChar_cons]
  simp only [List.append_assoc, List.cons_append] at hbody ⊢
  rw [hbody]
  simp [expectChar_cons]

theorem matchUrn_format (a b c d e : List Char)
    (ha : a.length = 8) (hb : b.length = 4) (hc : c.length = 4)
    (hd : d.length = 4) (he : e.length = 12)
    (hah : ∀ x ∈ a, isHexDigitCI x = true)
    (hbh : ∀ x ∈ b, isHexDigitCI x = true)
    (hch : ∀ x ∈ c, isHexDigitCI x = true)
    (hdh : ∀ x ∈ d, isHexDigitCI x = true)
    (heh : ∀ x ∈ e, isHexDigitCI x = true) :
    matchUrn ("urn:uuid:".data ++ (a ++ '-' :: b ++ '-' :: c ++ '-' :: d ++ '-' :: e))
      = some (a ++ b ++ c ++ d ++ e) := by
  have hbody := matchHyphenBody_append a b c d e [] ha hb hc hd he
    hah hbh hch hdh heh
  rw [List.append_nil] at hbody
  have hpre : ∀ ch ∈ "urn:uuid:".data, toLowerAscii ch = ch := by decide
  rw [matchUrn, expectLitCI_append _ _ hpre]
  simp only []
  rw [hbody]
  simp

theorem split5 (hx : List Char) (h : hx.length = 32) :
    ∃ a b c d e : List Char, hx = a ++ (b ++ (c ++ (d ++ e))) ∧
      a.length = 8 ∧ b.length = 4 ∧ c.length = 4 ∧ d.length = 4 ∧
      e.length = 12 ∧ (∀ x ∈ a, x ∈ hx) ∧ (∀ x ∈ b, x ∈ hx) ∧
      (∀ x ∈ c, x ∈ hx) ∧ (∀ x ∈ d, x ∈ hx) ∧ (∀ x ∈ e, x ∈ hx) := by
  have e2 : hx.drop 8 = (hx.drop 8).take 4 ++ hx.drop 12 := by
    conv_lhs => rw [← List.take_append_drop 4 (hx.drop 8)]
    rw [List.drop_drop]
  have e3 : hx.drop 12 = (hx.drop 12).take 4 ++ hx.drop 16 := by
    conv_lhs => rw [← List.take_append_drop 4 (hx.drop 12)]
    rw [List.drop_drop]
  have e4 : hx.drop 16 = (hx.drop 16).take 4 ++ hx.drop 20 := by
    conv_lhs => rw [← List.take_append_drop 4 (hx.drop 16)]
    rw [List.drop_drop]
  refine ⟨hx.take 8, (hx.drop 8).take 4, (hx.drop 12).take 4,
    (hx.drop 16).take 4, hx.drop 20, ?_, ?_, ?_, ?_, ?_, ?_, ?_, ?_, ?_, ?_, ?_⟩
  · calc hx = hx.take 8 ++ hx.drop 8 := (List.take_append_drop 8 hx).symm
    _ = hx.take 8 ++ ((hx.drop 8).take 4 ++ hx.drop 12) :=
      congrArg (fun t => hx.take 8 ++ t) e2
    _ = hx.take 8 ++ ((hx.drop 8).take 4 ++ ((hx.drop 12).take 4 ++ hx.drop 16)) :=
      congrArg (fun t => hx.take 8 ++ ((hx.drop 8).take 4 ++ t)) e3
    _ = hx.take 8 ++ ((hx.drop 8).take 4 ++ ((hx.drop 12).take 4
        ++ ((hx.drop 16).take 4 ++ hx.drop 20))) :=
      congrArg (fun t => hx.take 8 ++ ((hx.drop 8).take 4
        ++ ((hx.drop 12).take 4 ++ t))) e4
  · rw [List.length_take, h]
    omega
  · rw [List.length_take, List.length_drop, h]
    omega
  · rw [List.length_take, List.length_drop, h]
    omega
  · rw [List.length_take, List.length_drop, h]
    omega
  · rw [List.length_drop, h]
  · exact fun x hx' => List.mem_of_mem_take hx'
  · exact fun x hx' => List.mem_of_mem_drop (List.mem_of_mem_take hx')
  · exact fun x hx' => List.mem_of_mem_drop (List.mem_of_mem_take hx')
  · exact fun x hx' => List.mem_of_mem_drop (List.mem_of_mem_take hx')
  · exact fun x hx' => List.mem_of_mem_drop hx'

theorem hyphenGroups_append (a b c d e : List Char)
    (ha : a.length = 8) (hb : b.length = 4) (hc : c.length = 4)
    (hd : d.length = 4) (he : e.length = 12)
    (hah : ∀ x ∈ a, isLowerHexChar x = true)
    (hbh : ∀ x ∈ b, isLowerHexChar x = true)
    (hch : ∀ x ∈ c, isLowerHexChar x = true)
    (hdh : ∀ x ∈ d, isLowerHexChar x = true)
    (heh : ∀ x ∈ e, isLowerHexChar x = true) :
    Uuid25.hyphenGroups (a ++ (b ++ (c ++ (d ++ e))))
      = some (a ++ '-' :: b ++ '-' :: c ++ '-' :: d ++ '-' :: e) := by
  have h8 := takeGroup_append isLowerHexChar a (b ++ (c ++ (d ++ e))) hah
  rw [ha] at h8
  have h4b := takeGroup_append isLowerHexChar b (c ++ (d ++ e)) hbh
  rw [hb] at h4b
  have h4c := takeGroup_append isLowerHexChar c (d ++ e) hch
  rw [hc] at h4c
  have h4d := takeGroup_append isLowerHexChar d e hdh
  rw [hd] at h4d
  have h12 := takeGroup_append isLowerHexChar e [] heh
  rw [he, List.append_nil] at h12
  rw [Uuid25.hyphenGroups]
  simp only [List.cons_append, List.append_assoc] at h8 h4b h4c h4d h12 ⊢
  simp only [h8, h4b, h4c, h4d, h12]
  simp

/-- Combined formatter specification: `toHex`, `toHyphenated`, `toBraced`
and `toUrn` all succeed on a canonical value, and the parsing regular
expressions recover the 32 hex digits. -/
theorem formats_spec (u : Uuid25) (h : canonicalValue u.value) :
    ∃ hx t, Uuid25.toHex u = .ok hx ∧ hx.length = 32 ∧
      (∀ c ∈ hx, isLowerHexChar c = true) ∧
      valBE 16 (hx.map fun c => DECODE_MAP c.toNat)
        = valBE 36 (decode36 u.value) ∧
      Uuid25.toHyphenated u = .ok t ∧ t.length = 36 ∧
      matchHyphenated t = some hx ∧
      Uuid25.toBraced u = .ok (braceOpen :: t ++ [braceClose]) ∧
      matchBraced (braceOpen :: t ++ [braceClose]) = some hx ∧
      Uuid25.toUrn u = .ok ("urn:uuid:".data ++ t) ∧
      matchUrn ("urn:uuid:".data ++ t) = some hx := by
  obtain ⟨hx, hhex, hlen32, hlower, hval⟩ := toHex_spec u h
  obtain ⟨a, b, c, d, e, hsplit, ha, hb, hc, hd, he, ma, mb, mc, md, me⟩ :=
    split5 hx hlen32
  have hal : ∀ x ∈ a, isLowerHexChar x = true := fun x hx' => hlower x (ma x hx')
  have hbl : ∀ x ∈ b, isLowerHexChar x = true := fun x hx' => hlower x (mb x hx')
  have hcl : ∀ x ∈ c, isLowerHexChar x = true := fun x hx' => hlower x (mc x hx')
  have hdl : ∀ x ∈ d, isLowerHexChar x = true := fun x hx' => hlower x (md x hx')
  have hel : ∀ x ∈ e, isLowerHexChar x = true := fun x hx' => hlower x (me x hx')
  have haci : ∀ x ∈ a, isHexDigitCI x = true := fun x hx' => lowerHex_ci x (hal x hx')
  have hbci : ∀ x ∈ b, isHexDigitCI x = true := fun x hx' => lowerHex_ci x (hbl x hx')
  have hcci : ∀ x ∈ c, isHexDigitCI x = true := fun x hx' => lowerHex_ci x (hcl x hx')
  have hdci : ∀ x ∈ d, isHexDigitCI x = true := fun x hx' => lowerHex_ci x (hdl x hx')
  have heci : ∀ x ∈ e, isHexDigitCI x = true := fun x hx' => lowerHex_ci x (hel x hx')
  have hgroups : Uuid25.hyphenGroups hx
      = some (a ++ '-' :: b ++ '-' :: c ++ '-' :: d ++ '-' :: e) := by
    rw [hsplit]
    exact hyphenGroups_append a b c d e ha hb hc hd he hal hbl hcl hdl hel
  have hhyph : Uuid25.toHyphenated u
      = .ok (a ++ '-' :: b ++ '-' :: c ++ '-' :: d ++ '-' :: e) := by
    rw [Uuid25.toHyphenated, hhex]
    simp only []
    rw [hgroups]
  have htlen : (a ++ '-' :: b ++ '-' :: c ++ '-' :: d ++ '-' :: e).length = 36 := by
    simp only [List.length_append, List.length_cons]
    omega
  have hmatch : matchHyphenated (a ++ '-' :: b ++ '-' :: c ++ '-' :: d ++ '-' :: e)
      = some hx := by
    rw [matchHyphenated_format a b c d e ha hb hc hd he haci hbci hcci hdci heci,
      hsplit]
    simp [List.append_assoc]
  have hbr : Uuid25.toBraced u
      = .ok (braceOpen :: (a ++ '-' :: b ++ '-' :: c ++ '-' :: d ++ '-' :: e) ++ [braceClose]) := by
    rw [Uuid25.toBraced, hhyph]
  have hbrmatch : matchBraced
      (braceOpen :: (a ++ '-' :: b ++ '-' :: c ++ '-' :: d ++ '-' :: e) ++ [braceClose])
      = some hx := by
    rw [matchBraced_format a b c d e ha hb hc hd he haci hbci hcci hdci heci,
      hsplit]
    simp [List.append_assoc]
  have hurn : Uuid25.toUrn u
      = .ok ("urn:uuid:".data ++ (a ++ '-' :: b ++ '-' :: c ++ '-' :: d ++ '-' :: e)) := by
    rw [Uuid25.toUrn, hhyph]
  have hurnmatch : matchUrn
      ("urn:uuid:".data ++ (a ++ '-' :: b ++ '-' :: c ++ '-' :: d ++ '-' :: e))
      = some hx := by
    rw [matchUrn_format a b c d e ha hb hc hd he haci hbci hcci hdci heci, hsplit]
    simp [List.append_assoc]
  exact ⟨hx, a ++ '-' :: b ++ '-' :: c ++ '-' :: d ++ '-' :: e, hhex, hlen32,
    hlower, hval, hhyph, htlen, hmatch, hbr, hbrmatch, hurn, hurnmatch⟩

/-! ## The Crockford path -/

theorem decodeCrock_map_alpha (dv : List Nat) (h : ∀ e ∈ dv, e < 32) :
    (dv.map (alphaChar crockfordDigits)).map
      (fun c => CROCKFORD_DECODE_MAP c.toNat) = dv := by
  rw [List.map_map]
  conv_rhs => rw [← List.map_id dv]
  apply List.map_congr_left
  intro e he
  simp only [Function.comp_apply, id]
  exact decode_alphaCrockford e (h e he)

theorem toCrockford_spec (u : Uuid25) (h : canonicalValue u.value) :
    ∃ ck, Uuid25.toCrockford u = .ok ck ∧ ck.length = 26 ∧
      (∀ c ∈ ck, isAsciiAlnum c = true) ∧
      decodeCrockfordChars ck
        = .ok (ck.map fun c => CROCKFORD_DECODE_MAP c.toNat) ∧
      (∀ d ∈ ck.map fun c => CROCKFORD_DECODE_MAP c.toNat, d < 32) ∧
      valBE 32 (ck.map fun c => CROCKFORD_DECODE_MAP c.toNat)
        = valBE 36 (decode36 u.value) := by
  rw [Uuid25.toCrockford, decodeDigitChars_lower36 u.value h.2.1]
  simp only []
  have hdig : ∀ d ∈ decode36 u.value, d < 36 := by
    intro d hd
    obtain ⟨c, hc, rfl⟩ := List.mem_map.mp hd
    exact decodeMap_lt_36 c (h.2.1 c hc)
  have hval : valBE 36 (decode36 u.value) < 32 ^ 26 := by
    rw [pow_fact_32]
    have := canonical_val_le u.value h
    have h2 : (2 : Nat) ^ 128 < 2 ^ 130 := by norm_num
    omega
  obtain ⟨dv32, hcv, hlen26, hdig32, hval32⟩ :=
    convertBase_ok (decode36 u.value) 36 32 26 (by norm_num) (by norm_num)
      (by norm_num) (by norm_num) hdig (by norm_num) hval
  rw [hcv]
  simp only []
  have hraw : encodeRaw crockfordDigits dv32 = dv32.map (alphaChar crockfordDigits) :=
    encodeRaw_eq_map crockfordDigits dv32 (fun e he => hdig32 e he)
  refine ⟨encodeRaw crockfordDigits dv32, rfl, ?_, ?_, ?_, ?_, ?_⟩
  · rw [hraw, List.length_map, hlen26]
  · intro c hc
    rw [hraw] at hc
    obtain ⟨e, he, rfl⟩ := List.mem_map.mp hc
    exact alphaCrockford_alnum e (hdig32 e he)
  · rw [decodeCrockfordChars]
    apply decodeCrockfordList_ok
    intro c hc
    rw [hraw] at hc
    obtain ⟨e, he, rfl⟩ := List.mem_map.mp hc
    rw [decode_alphaCrockford e (hdig32 e he)]
    exact hdig32 e he
  · intro d hd
    obtain ⟨c, hc, rfl⟩ := List.mem_map.mp hd
    rw [hraw] at hc
    obtain ⟨e, he, rfl⟩ := List.mem_map.mp hc
    rw [decode_alphaCrockford e (hdig32 e he)]
    exact hdig32 e he
  · rw [hraw, decodeCrock_map_alpha dv32 hdig32, hval32]

/-! ## Equality of `Uuid25` values -/

theorem uuid_eq_of_value (u v : Uuid25) (h : u.value = v.value) : u = v := by
  cases u
  cases v
  simp only [Uuid25.mk.injEq]
  exact h

theorem uuid_eta (u : Uuid25) : (⟨u.value⟩ : Uuid25) = u := rfl

/-- The common tail of the hexadecimal parsers: on 32 case-insensitive
hex digits, `parseHexImpl` succeeds with the canonical value of the hex
reading; applied to a `Uuid25` with the same value, it returns it. -/
theorem parseHexImpl_roundtrip (u : Uuid25) (h : canonicalValue u.value)
    (hx : List Char) (hlen : hx.length = 32)
    (hhex : ∀ c ∈ hx, isHexDigitCI c = true)
    (hval : valBE 16 (hx.map fun c => DECODE_MAP c.toNat)
      = valBE 36 (decode36 u.value)) :
    Uuid25.parseHexImpl (some hx) = .ok u := by
  obtain ⟨u2, hok, hcanon2, hval2⟩ := parseHexImpl_spec hx hlen hhex
  rw [hok]
  congr 1
  apply uuid_eq_of_value
  apply canonical_unique _ _ hcanon2 h
  rw [hval2, hval]

/-- C1: For every 16-byte array, every one of the six textual formats of
`fromBytes b` parses back to a structurally equal value, and
`toBytes (fromBytes b) = b`. -/
theorem roundtrip_all_formats (b : List Nat) (hlen : b.length = 16)
    (hb : ∀ d ∈ b, d < 256) :
    ∃ u : Uuid25, Uuid25.fromBytes b = .ok u ∧
      Uuid25.toBytes u = .ok b ∧
      Uuid25.parse u.value = .ok u ∧
      (Uuid25.toHex u).bind Uuid25.parse = .ok u ∧
      (Uuid25.toHyphenated u).bind Uuid25.parse = .ok u ∧
      (Uuid25.toBraced u).bind Uuid25.parse = .ok u ∧
      (Uuid25.toUrn u).bind Uuid25.parse = .ok u ∧
      (Uuid25.toCrockford u).bind Uuid25.parse = .ok u := by
  obtain ⟨u, hfb, hcanon, huval⟩ := fromBytes_spec b hlen hb
  have hN : valBE 36 (decode36 u.value) < 2 ^ 128 := by
    have := canonical_val_le u.value hcanon
    omega
  refine ⟨u, hfb, ?_, ?_, ?_, ?_, ?_, ?_, ?_⟩
  · -- toBytes
    obtain ⟨b', htb, hblen', hbdig', hbval'⟩ := toBytes_spec u hcanon
    have : b' = b := by
      apply valBE_inj 256 b' b hbdig' hb (by omega)
      rw [hbval', huval]
    rw [htb, this]
  · -- the canonical 25-digit format
    rw [parse_len25 u.value hcanon.1, parseUuid25_of_canonical u.value hcanon,
      uuid_eta]
  · -- toHex
    obtain ⟨hx, t, hhex, hlen32, hlower, hval16, hhyph, htlen, hmatch, hbr,
      hbrmatch, hurn, hurnmatch⟩ := formats_spec u hcanon
    rw [hhex]
    show Uuid25.parse hx = .ok u
    rw [parse_len32 hx hlen32, Uuid25.parseHex,
      if_pos ⟨hlen32, List.all_eq_true.mpr
        (fun c hc => lowerHex_ci c (hlower c hc))⟩]
    exact parseHexImpl_roundtrip u hcanon hx hlen32
      (fun c hc => lowerHex_ci c (hlower c hc)) hval16
  · -- toHyphenated
    obtain ⟨hx, t, hhex, hlen32, hlower, hval16, hhyph, htlen, hmatch, hbr,
      hbrmatch, hurn, hurnmatch⟩ := formats_spec u hcanon
    rw [hhyph]
    show Uuid25.parse t = .ok u
    rw [parse_len36 t htlen, Uuid25.parseHyphenated, hmatch]
    exact parseHexImpl_roundtrip u hcanon hx hlen32
      (fun c hc => lowerHex_ci c (hlower c hc)) hval16
  · -- toBraced
    obtain ⟨hx, t, hhex, hlen32, hlower, hval16, hhyph, htlen, hmatch, hbr,
      hbrmatch, hurn, hurnmatch⟩ := formats_spec u hcanon
    rw [hbr]
    show Uuid25.parse (braceOpen :: t ++ [braceClose]) = .ok u
    have hblen : (braceOpen :: t ++ [braceClose]).length = 38 := by
      simp only [List.length_append, List.length_cons, htlen]
      rfl
    rw [parse_len38 _ hblen, Uuid25.parseBraced, hbrmatch]
    exact parseHexImpl_roundtrip u hcanon hx hlen32
      (fun c hc => lowerHex_ci c (hlower c hc)) hval16
  · -- toUrn
    obtain ⟨hx, t, hhex, hlen32, hlower, hval16, hhyph, htlen, hmatch, hbr,
      hbrmatch, hurn, hurnmatch⟩ := formats_spec u hcanon
    rw [hurn]
    show Uuid25.parse ("urn:uuid:".data ++ t) = .ok u
    have hulen : ("urn:uuid:".data ++ t).length = 45 := by
      simp only [List.length_append, htlen]
      rfl
    rw [parse_len45 _ hulen, Uuid25.parseUrn, hurnmatch]
    exact parseHexImpl_roundtrip u hcanon hx hlen32
      (fun c hc => lowerHex_ci c (hlower c hc)) hval16
  · -- toCrockford
    obtain ⟨ck, hck, hcklen, hckalnum, hckdec, hckdig, hckval⟩ :=
      toCrockford_spec u hcanon
    rw [hck]
    show Uuid25.parse ck = .ok u
    rw [parse_len26 ck hcklen, Uuid25.parseCrockford,
      if_pos ⟨hcklen, List.all_eq_true.mpr hckalnum⟩, hckdec]
    simp only []
    have hfit : valBE 32 (ck.map fun c => CROCKFORD_DECODE_MAP c.toNat) < 36 ^ 25 := by
      rw [hckval]
      exact lt_of_lt_of_le hN pow_fact_36
    obtain ⟨dv, hcv, hdvlen, hdvdig, hdvval⟩ :=
      convertBase_ok _ 32 36 25 (by norm_num) (by norm_num) (by norm_num)
        (by norm_num) hckdig (by norm_num) hfit
    rw [hcv]
    simp only []
    obtain ⟨hok, _⟩ := fromDigitValues_spec dv hdvlen hdvdig
    have hb128 : valBE 36 dv ≤ 2 ^ 128 - 1 := by
      rw [hdvval, hckval]
      omega
    rw [hok hb128]
    congr 1
    obtain ⟨hcanon3, hdec3⟩ := fromDigitValues_canonical dv _ (hok hb128)
    apply uuid_eq_of_value
    apply canonical_unique _ _ hcanon3 hcanon
    rw [hdec3, hdvval, hckval]

/-! ## All accepting paths produce canonical values -/

theorem parseHexImpl_ok_canonical :
    ∀ (o : Option (List Char)) (u : Uuid25),
      Uuid25.parseHexImpl o = .ok u → canonicalValue u.value := by
  intro o u h
  cases o with
  | none => exact Except.noConfusion h
  | some s =>
    rw [Uuid25.parseHexImpl] at h
    rcases hdec : decodeDigitChars s 16 with e | src
    · rw [hdec] at h
      exact Except.noConfusion h
    · rw [hdec] at h
      simp only [] at h
      rcases hcv : convertBase src 16 36 25 with e | dv
      · rw [hcv] at h
        exact Except.noConfusion h
      · rw [hcv] at h
        simp only [] at h
        exact (fromDigitValues_canonical dv u h).1

theorem parseCrockford_ok_canonical (s : List Char) (u : Uuid25)
    (h : Uuid25.parseCrockford s = .ok u) : canonicalValue u.value := by
  rw [Uuid25.parseCrockford] at h
  by_cases hcond : s.length = 26 ∧ s.all isAsciiAlnum
  · rw [if_pos hcond] at h
    rcases hdec : decodeCrockfordChars s with e | src
    · rw [hdec] at h
      exact Except.noConfusion h
    · rw [hdec] at h
      simp only [] at h
      rcases hcv : convertBase src 32 36 25 with e | dv
      · rw [hcv] at h
        exact Except.noConfusion h
      · rw [hcv] at h
        simp only [] at h
        exact (fromDigitValues_canonical dv u h).1
  · rw [if_neg hcond] at h
    exact Except.noConfusion h

theorem parse_ok_canonical (s : List Char) (u : Uuid25)
    (h : Uuid25.parse s = .ok u) : canonicalValue u.value := by
  rw [Uuid25.parse] at h
  split_ifs at h
  · exact (parseUuid25_ok_char s u h).2.2.2
  · exact parseCrockford_ok_canonical s u h
  · rw [Uuid25.parseHex] at h
    exact parseHexImpl_ok_canonical _ u h
  · rw [Uuid25.parseHyphenated] at h
    exact parseHexImpl_ok_canonical _ u h
  · rw [Uuid25.parseBraced] at h
    exact parseHexImpl_ok_canonical _ u h
  · rw [Uuid25.parseUrn] at h
    exact parseHexImpl_ok_canonical _ u h

theorem fromBytes_ok_canonical (b : List Nat) (u : Uuid25)
    (h : Uuid25.fromBytes b = .ok u) : canonicalValue u.value := by
  rw [Uuid25.fromBytes] at h
  by_cases hlen : b.length ≠ 16
  · rw [if_pos hlen] at h
    exact Except.noConfusion h
  · rw [if_neg hlen] at h
    rcases hcv : convertBase b 256 36 25 with e | dv
    · rw [hcv] at h
      exact Except.noConfusion h
    · rw [hcv] at h
      simp only [] at h
      exact (fromDigitValues_canonical dv u h).1

/-! ## Case insensitivity -/

theorem toNat_inj (c d : Char) : c.toNat = d.toNat ↔ c = d := by
  constructor
  · intro h
    calc c = Char.ofNat c.toNat := (Char.ofNat_toNat c).symm
    _ = Char.ofNat d.toNat := by rw [h]
    _ = d := Char.ofNat_toNat d
  · intro h
    rw [h]

theorem decodeMap_upperCode (n : Nat) : DECODE_MAP (upperCode n) = DECODE_MAP n := by
  rw [upperCode, DECODE_MAP, DECODE_MAP]
  split_ifs <;> omega

theorem decodeMap_lowerCode (n : Nat) : DECODE_MAP (lowerCode n) = DECODE_MAP n := by
  rw [lowerCode, DECODE_MAP, DECODE_MAP]
  split_ifs <;> omega

theorem crockMap_upperCode (n : Nat) :
    CROCKFORD_DECODE_MAP (upperCode n) = CROCKFORD_DECODE_MAP n := by
  by_cases h : 97 ≤ n ∧ n ≤ 122
  · obtain ⟨h1, h2⟩ := h
    interval_cases n <;> decide
  · rw [upperCode, if_neg h]

theorem crockMap_lowerCode (n : Nat) :
    CROCKFORD_DECODE_MAP (lowerCode n) = CROCKFORD_DECODE_MAP n := by
  by_cases h : 65 ≤ n ∧ n ≤ 90
  · obtain ⟨h1, h2⟩ := h
    interval_cases n <;> decide
  · rw [lowerCode, if_neg h]

theorem alnum_upperCode (n : Nat) :
    ((48 ≤ upperCode n ∧ upperCode n ≤ 57) ∨ (65 ≤ upperCode n ∧ upperCode n ≤ 90)
      ∨ (97 ≤ upperCode n ∧ upperCode n ≤ 122))
    ↔ ((48 ≤ n ∧ n ≤ 57) ∨ (65 ≤ n ∧ n ≤ 90) ∨ (97 ≤ n ∧ n ≤ 122)) := by
  rw [upperCode]
  split_ifs <;> omega

theorem alnum_lowerCode (n : Nat) :
    ((48 ≤ lowerCode n ∧ lowerCode n ≤ 57) ∨ (65 ≤ lowerCode n ∧ lowerCode n ≤ 90)
      ∨ (97 ≤ lowerCode n ∧ lowerCode n ≤ 122))
    ↔ ((48 ≤ n ∧ n ≤ 57) ∨ (65 ≤ n ∧ n ≤ 90) ∨ (97 ≤ n ∧ n ≤ 122)) := by
  rw [lowerCode]
  split_ifs <;> omega

theorem hexCI_upperCode (n : Nat) :
    ((48 ≤ upperCode n ∧ upperCode n ≤ 57) ∨ (97 ≤ upperCode n ∧ upperCode n ≤ 102)
      ∨ (65 ≤ upperCode n ∧ upperCode n ≤ 70))
    ↔ ((48 ≤ n ∧ n ≤ 57) ∨ (97 ≤ n ∧ n ≤ 102) ∨ (65 ≤ n ∧ n ≤ 70)) := by
  rw [upperCode]
  split_ifs <;> omega

theorem hexCI_lowerCode (n : Nat) :
    ((48 ≤ lowerCode n ∧ lowerCode n ≤ 57) ∨ (97 ≤ lowerCode n ∧ lowerCode n ≤ 102)
      ∨ (65 ≤ lowerCode n ∧ lowerCode n ≤ 70))
    ↔ ((48 ≤ n ∧ n ≤ 57) ∨ (97 ≤ n ∧ n ≤ 102) ∨ (65 ≤ n ∧ n ≤ 70)) := by
  rw [lowerCode]
  split_ifs <;> omega

theorem lowerCode_upperCode (n : Nat) : lowerCode (upperCode n) = lowerCode n := by
  simp only [upperCode, lowerCode]
  split_ifs <;> omega

theorem lowerCode_lowerCode (n : Nat) : lowerCode (lowerCode n) = lowerCode n := by
  simp only [lowerCode]
  split_ifs <;> omega

theorem upper_parserInvariant : ParserInvariant toUpperAscii := by
  have htn := toNat_toUpperAscii
  refine ⟨?_, ?_, ?_, ?_, ?_, ?_, ?_, ?_⟩
  · intro c
    rw [isHexDigitCI, isHexDigitCI, htn]
    exact decide_eq_decide.mpr (hexCI_upperCode c.toNat)
  · intro c
    rw [isAsciiAlnum, isAsciiAlnum, htn]
    exact decide_eq_decide.mpr (alnum_upperCode c.toNat)
  · intro c
    rw [htn, decodeMap_upperCode]
  · intro c
    rw [htn, crockMap_upperCode]
  · intro c
    calc toLowerAscii (toUpperAscii c)
        = Char.ofNat (lowerCode (toUpperAscii c).toNat) := rfl
    _ = Char.ofNat (lowerCode (upperCode c.toNat)) := by rw [htn]
    _ = Char.ofNat (lowerCode c.toNat) := by rw [lowerCode_upperCode]
    _ = toLowerAscii c := rfl
  · intro c
    rw [← toNat_inj, ← toNat_inj (c := c), htn]
    have : ('-' : Char).toNat = 45 := rfl
    rw [this, upperCode]
    split_ifs <;> omega
  · intro c
    rw [← toNat_inj, ← toNat_inj (c := c), htn]
    have : braceOpen.toNat = 123 := rfl
    rw [this, upperCode]
    split_ifs <;> omega
  · intro c
    rw [← toNat_inj, ← toNat_inj (c := c), htn]
    have : braceClose.toNat = 125 := rfl
    rw [this, upperCode]
    split_ifs <;> omega

theorem lower_parserInvariant : ParserInvariant toLowerAscii := by
  have htn := toNat_toLowerAscii
  refine ⟨?_, ?_, ?_, ?_, ?_, ?_, ?_, ?_⟩
  · intro c
    rw [isHexDigitCI, isHexDigitCI, htn]
    exact decide_eq_decide.mpr (hexCI_lowerCode c.toNat)
  · intro c
    rw [isAsciiAlnum, isAsciiAlnum, htn]
    exact decide_eq_decide.mpr (alnum_lowerCode c.toNat)
  · intro c
    rw [htn, decodeMap_lowerCode]
  · intro c
    rw [htn, crockMap_lowerCode]
  · intro c
    calc toLowerAscii (toLowerAscii c)
        = Char.ofNat (lowerCode (toLowerAscii c).toNat) := rfl
    _ = Char.ofNat (lowerCode (lowerCode c.toNat)) := by rw [htn]
    _ = Char.ofNat (lowerCode c.toNat) := by rw [lowerCode_lowerCode]
    _ = toLowerAscii c := rfl
  · intro c
    rw [← toNat_inj, ← toNat_inj (c := c), htn]
    have : ('-' : Char).toNat = 45 := rfl
    rw [this, lowerCode]
    split_ifs <;> omega
  · intro c
    rw [← toNat_inj, ← toNat_inj (c := c), htn]
    have : braceOpen.toNat = 123 := rfl
    rw [this, lowerCode]
    split_ifs <;> omega
  · intro c
    rw [← toNat_inj, ← toNat_inj (c := c), htn]
    have : braceClose.toNat = 125 := rfl
    rw [this, lowerCode]
    split_ifs <;> omega

theorem decodeDigitList_map (f : Char → Char)
    (hdm : ∀ c, DECODE_MAP (f c).toNat = DECODE_MAP c.toNat) (base : Nat) :
    ∀ s : List Char, decodeDigitList base (s.map f) = decodeDigitList base s := by
  intro s
  induction s with
  | nil => rfl
  | cons c cs ih =>
    rw [List.map_cons, decodeDigitList, decodeDigitList, hdm c, ih]

theorem decodeCrockfordList_map (f : Char → Char)
    (hcm : ∀ c, CROCKFORD_DECODE_MAP (f c).toNat = CROCKFORD_DECODE_MAP c.toNat) :
    ∀ s : List Char, decodeCrockfordList (s.map f) = decodeCrockfordList s := by
  intro s
  induction s with
  | nil => rfl
  | cons c cs ih =>
    rw [List.map_cons, decodeCrockfordList, decodeCrockfordList, hcm c, ih]

theorem all_map_eq (p : Char → Bool) (f : Char → Char)
    (hf : ∀ c, p (f c) = p c) (s : List Char) :
    (s.map f).all p = s.all p := by
  rw [List.all_map]
  congr 1
  exact funext hf

theorem takeGroup_map (f : Char → Char) (hf : ParserInvariant f) :
    ∀ (n : Nat) (s : List Char),
      takeGroup isHexDigitCI n (s.map f)
        = (takeGroup isHexDigitCI n s).map (fun g => (g.1.map f, g.2.map f)) := by
  intro n
  induction n with
  | zero => intro s; rfl
  | succ n ih =>
    intro s
    cases s with
    | nil => rfl
    | cons c cs =>
      rw [List.map_cons, takeGroup, takeGroup, hf.hexCI c]
      by_cases hc : isHexDigitCI c = true
      · rw [if_pos hc, if_pos hc, ih cs]
        cases takeGroup isHexDigitCI n cs with
        | none => rfl
        | some g => rfl
      · rw [if_neg hc, if_neg hc]
        rfl

theorem expectChar_map_dash (f : Char → Char) (hf : ParserInvariant f) :
    ∀ s : List Char,
      expectChar '-' (s.map f) = (expectChar '-' s).map (List.map f) := by
  intro s
  cases s with
  | nil => rfl
  | cons c cs =>
    rw [List.map_cons, expectChar, expectChar]
    by_cases hc : c = '-'
    · rw [if_pos hc, if_pos ((hf.dash c).mpr hc)]
      rfl
    · rw [if_neg hc, if_neg (fun hfc => hc ((hf.dash c).mp hfc))]
      rfl

theorem expectLitCI_map (f : Char → Char) (hf : ParserInvariant f) :
    ∀ (p s : List Char),
      expectLitCI p (s.map f) = (expectLitCI p s).map (List.map f) := by
  intro p
  induction p with
  | nil => intro s; rfl
  | cons q qs ih =>
    intro s
    cases s with
    | nil => rfl
    | cons c cs =>
      rw [List.map_cons, expectLitCI, expectLitCI, hf.low c]
      by_cases hc : toLowerAscii c = q
      · rw [if_pos hc, if_pos hc, ih cs]
      · rw [if_neg hc, if_neg hc]
        rfl

theorem matchHyphenBody_map (f : Char → Char) (hf : ParserInvariant f)
    (s : List Char) :
    matchHyphenBody (s.map f)
      = (matchHyphenBody s).map (fun g => (g.1.map f, g.2.map f)) := by
  rw [matchHyphenBody, matchHyphenBody, takeGroup_map f hf]
  cases takeGroup isHexDigitCI 8 s with
  | none => rfl
  | some g1 =>
    simp only [Option.map_some']
    rw [expectChar_map_dash f hf]
    cases expectChar '-' g1.2 with
    | none => rfl
    | some s1 =>
      simp only [Option.map_some']
      rw [takeGroup_map f hf]
      cases takeGroup isHexDigitCI 4 s1 with
      | none => rfl
      | some g2 =>
        simp only [Option.map_some']
        rw [expectChar_map_dash f hf]
        cases expectChar '-' g2.2 with
        | none => rfl
        | some s2 =>
          simp only [Option.map_some']
          rw [takeGroup_map f hf]
          cases takeGroup isHexDigitCI 4 s2 with
          | none => rfl
          | some g3 =>
            simp only [Option.map_some']
            rw [expectChar_map_dash f hf]
            cases expectChar '-' g3.2 with
            | none => rfl
            | some s3 =>
              simp only [Option.map_some']
              rw [takeGroup_map f hf]
              cases takeGroup isHexDigitCI 4 s3 with
              | none => rfl
              | some g4 =>
                simp only [Option.map_some']
                rw [expectChar_map_dash f hf]
                cases expectChar '-' g4.2 with
                | none => rfl
                | some s4 =>
                  simp only [Option.map_some']
                  rw [takeGroup_map f hf]
                  cases takeGroup isHexDigitCI 12 s4 with
                  | none => rfl
                  | some g5 =>
                    simp only [Option.map_some', List.map_append]

theorem matchHyphenated_map (f : Char → Char) (hf : ParserInvariant f)
    (s : List Char) :
    matchHyphenated (s.map f) = (matchHyphenated s).map (List.map f) := by
  rw [matchHyphenated, matchHyphenated, matchHyphenBody_map f hf]
  cases matchHyphenBody s with
  | none => rfl
  | some g =>
    simp only [Option.map_some']
    by_cases hg : g.2 = []
    · have : g.2.map f = [] := by rw [hg]; rfl
      rw [if_pos hg, if_pos this]
      rfl
    · have : ¬ (g.2.map f = []) := by
        intro hc
        exact hg (List.map_eq_nil_iff.mp hc)
      rw [if_neg hg, if_neg this]
      rfl

theorem matchBraced_map (f : Char → Char) (hf : ParserInvariant f)
    (s : List Char) :
    matchBraced (s.map f) = (matchBraced s).map (List.map f) := by
  rw [matchBraced, matchBraced]
  have hopen : expectChar braceOpen (s.map f) = (expectChar braceOpen s).map (List.map f) := by
    cases s with
    | nil => rfl
    | cons c cs =>
      rw [List.map_cons, expectChar, expectChar]
      by_cases hc : c = braceOpen
      · rw [if_pos hc, if_pos ((hf.lbrace c).mpr hc)]
        rfl
      · rw [if_neg hc, if_neg (fun hfc => hc ((hf.lbrace c).mp hfc))]
        rfl
  rw [hopen]
  cases expectChar braceOpen s with
  | none => rfl
  | some s1 =>
    simp only [Option.map_some']
    rw [matchHyphenBody_map f hf]
    cases matchHyphenBody s1 with
    | none => rfl
    | some g =>
      simp only [Option.map_some']
      have hclose : expectChar braceClose (g.2.map f)
          = (expectChar braceClose g.2).map (List.map f) := by
        cases hgg : g.2 with
        | nil => rfl
        | cons c cs =>
          rw [List.map_cons, expectChar, expectChar]
          by_cases hc : c = braceClose
          · rw [if_pos hc, if_pos ((hf.rbrace c).mpr hc)]
            rfl
          · rw [if_neg hc, if_neg (fun hfc => hc ((hf.rbrace c).mp hfc))]
            rfl
      rw [hclose]
      cases expectChar braceClose g.2 with
      | none => rfl
      | some s2 =>
        simp only [Option.map_some']
        by_cases hs2 : s2 = []
        · have : s2.map f = [] := by rw [hs2]; rfl
          rw [if_pos hs2, if_pos this]
          rfl
        · have : ¬ (s2.map f = []) := by
            intro hc
            exact hs2 (List.map_eq_nil_iff.mp hc)
          rw [if_neg hs2, if_neg this]
          rfl

theorem matchUrn_map (f : Char → Char) (hf : ParserInvariant f)
    (s : List Char) :
    matchUrn (s.map f) = (matchUrn s).map (List.map f) := by
  rw [matchUrn, matchUrn, expectLitCI_map f hf]
  cases expectLitCI "urn:uuid:".data s with
  | none => rfl
  | some s1 =>
    simp only [Option.map_some']
    rw [matchHyphenBody_map f hf]
    cases matchHyphenBody s1 with
    | none => rfl
    | some g =>
      simp only [Option.map_some']
      by_cases hg : g.2 = []
      · have : g.2.map f = [] := by rw [hg]; rfl
        rw [if_pos hg, if_pos this]
        rfl
      · have : ¬ (g.2.map f = []) := by
          intro hc
          exact hg (List.map_eq_nil_iff.mp hc)
        rw [if_neg hg, if_neg this]
        rfl

theorem parseHexImpl_map (f : Char → Char) (hf : ParserInvariant f) :
    ∀ (o : Option (List Char)),
      Uuid25.parseHexImpl (o.map (List.map f)) = Uuid25.parseHexImpl o := by
  intro o
  cases o with
  | none => rfl
  | some s =>
    simp only [Option.map_some']
    rw [Uuid25.parseHexImpl, Uuid25.parseHexImpl]
    have hdc : decodeDigitChars (s.map f) 16 = decodeDigitChars s 16 := by
      rw [decodeDigitChars, decodeDigitChars, decodeDigitList_map f hf.dm]
    rw [hdc]

theorem parseUuid25_map (f : Char → Char) (hf : ParserInvariant f)
    (s : List Char) :
    Uuid25.parseUuid25 (s.map f) = Uuid25.parseUuid25 s := by
  rw [Uuid25.parseUuid25, Uuid25.parseUuid25]
  have hval : (s.map f).map toLowerAscii = s.map toLowerAscii := by
    rw [List.map_map]
    apply List.map_congr_left
    intro c _
    exact hf.low c
  have hcond : ((s.map f).length = 25 ∧ (s.map f).all isAsciiAlnum)
      ↔ (s.length = 25 ∧ s.all isAsciiAlnum) := by
    rw [List.length_map, all_map_eq isAsciiAlnum f hf.alnum]
  by_cases hc : s.length = 25 ∧ s.all isAsciiAlnum
  · rw [if_pos hc, if_pos (hcond.mpr hc)]
    simp only [hval]
  · rw [if_neg hc, if_neg (fun hx => hc (hcond.mp hx))]

theorem parseHex_map (f : Char → Char) (hf : ParserInvariant f)
    (s : List Char) :
    Uuid25.parseHex (s.map f) = Uuid25.parseHex s := by
  rw [Uuid25.parseHex, Uuid25.parseHex]
  have hcond : ((s.map f).length = 32 ∧ (s.map f).all isHexDigitCI)
      ↔ (s.length = 32 ∧ s.all isHexDigitCI) := by
    rw [List.length_map, all_map_eq isHexDigitCI f hf.hexCI]
  by_cases hc : s.length = 32 ∧ s.all isHexDigitCI
  · rw [if_pos hc, if_pos (hcond.mpr hc)]
    have := parseHexImpl_map f hf (some s)
    simpa using this
  · rw [if_neg hc, if_neg (fun hx => hc (hcond.mp hx))]

theorem parseHyphenated_map (f : Char → Char) (hf : ParserInvariant f)
    (s : List Char) :
    Uuid25.parseHyphenated (s.map f) = Uuid25.parseHyphenated s := by
  rw [Uuid25.parseHyphenated, Uuid25.parseHyphenated,
    matchHyphenated_map f hf]
  exact parseHexImpl_map f hf (matchHyphenated s)

theorem parseBraced_map (f : Char → Char) (hf : ParserInvariant f)
    (s : List Char) :
    Uuid25.parseBraced (s.map f) = Uuid25.parseBraced s := by
  rw [Uuid25.parseBraced, Uuid25.parseBraced, matchBraced_map f hf]
  exact parseHexImpl_map f hf (matchBraced s)

theorem parseUrn_map (f : Char → Char) (hf : ParserInvariant f)
    (s : List Char) :
    Uuid25.parseUrn (s.map f) = Uuid25.parseUrn s := by
  rw [Uuid25.parseUrn, Uuid25.parseUrn, matchUrn_map f hf]
  exact parseHexImpl_map f hf (matchUrn s)

theorem parseCrockford_map (f : Char → Char) (hf : ParserInvariant f)
    (s : List Char) :
    Uuid25.parseCrockford (s.map f) = Uuid25.parseCrockford s := by
  rw [Uuid25.parseCrockford, Uuid25.parseCrockford]
  have hcond : ((s.map f).length = 26 ∧ (s.map f).all isAsciiAlnum)
      ↔ (s.length = 26 ∧ s.all isAsciiAlnum) := by
    rw [List.length_map, all_map_eq isAsciiAlnum f hf.alnum]
  by_cases hc : s.length = 26 ∧ s.all isAsciiAlnum
  · rw [if_pos hc, if_pos (hcond.mpr hc)]
    have hdc : decodeCrockfordChars (s.map f) = decodeCrockfordChars s := by
      rw [decodeCrockfordChars, decodeCrockfordChars,
        decodeCrockfordList_map f hf.cm]
    rw [hdc]
  · rw [if_neg hc, if_neg (fun hx => hc (hcond.mp hx))]

theorem parse_map (f : Char → Char) (hf : ParserInvariant f) (s : List Char) :
    Uuid25.parse (s.map f) = Uuid25.parse s := by
  rw [Uuid25.parse, Uuid25.parse, List.length_map]
  split_ifs
  · exact parseUuid25_map f hf s
  · exact parseCrockford_map f hf s
  · exact parseHex_map f hf s
  · exact parseHyphenated_map f hf s
  · exact parseBraced_map f hf s
  · exact parseUrn_map f hf s
  · rfl

theorem normalize_alnum (c : Char) :
    isAsciiAlnum (crockfordNormalize c) = isAsciiAlnum c := by
  rw [crockfordNormalize]
  split_ifs with h1 h2
  · rcases h1 with rfl | rfl | rfl | rfl <;> decide
  · rcases h2 with rfl | rfl <;> decide
  · rfl

theorem normalize_crock (c : Char) :
    CROCKFORD_DECODE_MAP (crockfordNormalize c).toNat
      = CROCKFORD_DECODE_MAP c.toNat := by
  rw [crockfordNormalize]
  split_ifs with h1 h2
  · rcases h1 with rfl | rfl | rfl | rfl <;> decide
  · rcases h2 with rfl | rfl <;> decide
  · rfl

/-! # Claim theorems -/

/-- C1 (witness): the round trip at the all-ones byte array. -/
theorem roundtrip_all_formats_witness :
    ∃ u : Uuid25, Uuid25.fromBytes (List.replicate 16 255) = .ok u ∧
      Uuid25.toBytes u = .ok (List.replicate 16 255) ∧
      Uuid25.parse u.value = .ok u ∧
      (Uuid25.toHex u).bind Uuid25.parse = .ok u ∧
      (Uuid25.toHyphenated u).bind Uuid25.parse = .ok u ∧
      (Uuid25.toBraced u).bind Uuid25.parse = .ok u ∧
      (Uuid25.toUrn u).bind Uuid25.parse = .ok u ∧
      (Uuid25.toCrockford u).bind Uuid25.parse = .ok u :=
  roundtrip_all_formats (List.replicate 16 255) (by decide) (by decide)

/-- C2: `fromBytes` of sixteen `0xff` bytes yields exactly
`"f5lxx1zz5pnorynqglhzmsp33"`, and every 25-character alphanumeric
string whose lowercase form is lexicographically greater than that
constant fails to parse with a `SyntaxError`. -/
theorem max_bound_enforced :
    Uuid25.fromBytes (List.replicate 16 0xff)
      = .ok ⟨"f5lxx1zz5pnorynqglhzmsp33".data⟩ ∧
    ∀ s : List Char, s.length = 25 → (∀ c ∈ s, isAsciiAlnum c = true) →
      jsLt Uuid25.MAX (s.map toLowerAscii) = true →
      Uuid25.parse s = .error .syntaxError := by
  constructor
  · rfl
  · intro s hlen halnum hgt
    rw [parse_len25 s hlen]
    apply parseUuid25_err_gt s hlen halnum
    intro hle
    rw [jsLe, hgt] at hle
    simp at hle

/-- C2 (witness): the all-`z` string is above the bound and rejected. -/
theorem max_bound_enforced_witness :
    Uuid25.parse (List.replicate 25 'z') = .error .syntaxError :=
  max_bound_enforced.2 (List.replicate 25 'z') (by decide) (by decide) (by decide)

/-- C3 (counterexample): the all-`z` Crockford string decodes above
2^128 − 1, yet `parse` throws the assertion `Error`, not a
`SyntaxError` as claimed. -/
theorem crockford_overflow_not_syntax :
    (List.replicate 26 'z').length = 26 ∧
    (∀ c ∈ List.replicate 26 'z', isAsciiAlnum c = true) ∧
    2 ^ 128 - 1 < crockfordValue (List.replicate 26 'z') ∧
    Uuid25.parse (List.replicate 26 'z') = .error .assertionError ∧
    Uuid25.parse (List.replicate 26 'z') ≠ .error .syntaxError := by
  have heq : Uuid25.parse (List.replicate 26 'z') = .error .assertionError := rfl
  refine ⟨rfl, by decide, by decide, heq, ?_⟩
  rw [heq]
  intro hco
  injection hco with h
  exact JsError.noConfusion h

/-- C3 (amended): a 26-character alphanumeric string whose Crockford
reading exceeds 2^128 − 1 makes `parse` throw — but the exception is the
assertion `Error` thrown by `assert` (either `"too small dst"` in
`convertBase` or `"128-bit overflow"` in `fromDigitValues`), not a
`SyntaxError`. -/
theorem crockford_overflow_assertion (s : List Char) (hlen : s.length = 26)
    (halnum : ∀ c ∈ s, isAsciiAlnum c = true)
    (hbig : 2 ^ 128 - 1 < crockfordValue s) :
    Uuid25.parse s = .error .assertionError := by
  rw [parse_len26 s hlen, Uuid25.parseCrockford,
    if_pos ⟨hlen, List.all_eq_true.mpr halnum⟩]
  by_cases hdec : ∀ c ∈ s, CROCKFORD_DECODE_MAP c.toNat < 32
  · rw [decodeCrockfordChars, decodeCrockfordList_ok s hdec]
    simp only []
    have hdig : ∀ d ∈ (s.map fun c => CROCKFORD_DECODE_MAP c.toNat), d < 32 := by
      intro d hd
      obtain ⟨c, hc, rfl⟩ := List.mem_map.mp hd
      exact hdec c hc
    by_cases hfit : crockfordValue s < 36 ^ 25
    · obtain ⟨dv, hcv, hdvlen, hdvdig, hdvval⟩ :=
        convertBase_ok _ 32 36 25 (by norm_num) (by norm_num) (by norm_num)
          (by norm_num) hdig (by norm_num) hfit
      rw [hcv]
      simp only []
      obtain ⟨_, herr⟩ := fromDigitValues_spec dv hdvlen hdvdig
      apply herr
      rw [hdvval]
      exact hbig
    · have hfit' : 36 ^ 25 ≤ valBE 32 (s.map fun c => CROCKFORD_DECODE_MAP c.toNat) := by
        have hcv : crockfordValue s
            = valBE 32 (s.map fun c => CROCKFORD_DECODE_MAP c.toNat) := rfl
        omega
      rw [convertBase_overflow _ 32 36 25 (by norm_num) (by norm_num)
        (by norm_num) (by norm_num) hdig (by norm_num) hfit']
  · push_neg at hdec
    obtain ⟨c, hc, hge⟩ := hdec
    rw [decodeCrockfordChars, decodeCrockfordList_err s ⟨c, hc, hge⟩]

/-- C3 (amended, witness). -/
theorem crockford_overflow_assertion_witness :
    Uuid25.parse (List.replicate 26 'y') = .error .assertionError :=
  crockford_overflow_assertion (List.replicate 26 'y') (by decide) (by decide)
    (by decide)

/-- C4 (counterexample): a 26-character alphanumeric string containing
`U` makes `parse` throw the assertion `Error`
(`"invalid Crockford Base32 character"`), not a `SyntaxError` as
claimed. -/
theorem crockford_u_not_syntax :
    ('U' :: List.replicate 25 '0').length = 26 ∧
    (∀ c ∈ 'U' :: List.replicate 25 '0', isAsciiAlnum c = true) ∧
    'U' ∈ 'U' :: List.replicate 25 '0' ∧
    Uuid25.parse ('U' :: List.replicate 25 '0') = .error .assertionError ∧
    Uuid25.parse ('U' :: List.replicate 25 '0') ≠ .error .syntaxError := by
  have heq : Uuid25.parse ('U' :: List.replicate 25 '0')
      = .error .assertionError := rfl
  refine ⟨rfl, by decide, by decide, heq, ?_⟩
  rw [heq]
  intro hco
  injection hco with h
  exact JsError.noConfusion h

/-- C4 (amended): `U` and `u` map to the invalid sentinel of the
Crockford decode table, so any 26-character alphanumeric input
containing them makes `parse` fail — but with the assertion `Error`
thrown by `assert`, not a `SyntaxError`. -/
theorem crockford_u_assertion (s : List Char) (hlen : s.length = 26)
    (halnum : ∀ c ∈ s, isAsciiAlnum c = true)
    (hu : 'U' ∈ s ∨ 'u' ∈ s) :
    Uuid25.parse s = .error .assertionError := by
  rw [parse_len26 s hlen, Uuid25.parseCrockford,
    if_pos ⟨hlen, List.all_eq_true.mpr halnum⟩]
  have hbad : ∃ c ∈ s, 32 ≤ CROCKFORD_DECODE_MAP c.toNat := by
    rcases hu with h | h
    · exact ⟨'U', h, by decide⟩
    · exact ⟨'u', h, by decide⟩
  rw [decodeCrockfordChars, decodeCrockfordList_err s hbad]

/-- C4 (amended, witness). -/
theorem crockford_u_assertion_witness :
    Uuid25.parse ('u' :: List.replicate 25 '1') = .error .assertionError :=
  crockford_u_assertion ('u' :: List.replicate 25 '1') (by decide) (by decide)
    (Or.inr (by decide))

/-- C5 (counterexample): at `srcBase = dstBase = 2` the selected
`wordBase` is 2^51 and `wordBase * (srcBase * dstBase) = 2^53` exceeds
`Number.MAX_SAFE_INTEGER = 2^53 − 1`, so the claimed inequality
`wordBase ≤ MAX_SAFE_INTEGER / (srcBase * dstBase)` (for integers,
equivalent to `wordBase * (srcBase * dstBase) ≤ MAX_SAFE_INTEGER`)
fails for the selected word size. -/
theorem word_size_claim_counterexample :
    (2 ≤ (2 : Nat) ∧ (2 : Nat) ≤ 256) ∧
    MAX_SAFE_INTEGER < (selectWord 2 2).2 * (2 * 2) := by
  exact ⟨by decide, by decide⟩

/-- C5 (amended): the word size selected by `convertBase` satisfies
`wordBase * dstBase ≤ MAX_SAFE_INTEGER` — one factor of `srcBase` weaker
than the claimed `wordBase * (srcBase * dstBase) ≤ MAX_SAFE_INTEGER`,
which instead holds for `wordBase / srcBase`.  This suffices for
exactness: every intermediate multiply-accumulate of the inner sweep is
below `dstBase * wordBase ≤ MAX_SAFE_INTEGER`. -/
theorem word_size_selected_bound (srcBase dstBase : Nat)
    (_hs : 2 ≤ srcBase) (hs' : srcBase ≤ 256)
    (_hd : 2 ≤ dstBase) (hd' : dstBase ≤ 256) :
    (selectWord srcBase dstBase).2 * dstBase ≤ MAX_SAFE_INTEGER :=
  (selectWord_spec srcBase dstBase hs' hd').1

/-- C5 (amended, witness). -/
theorem word_size_selected_bound_witness :
    (selectWord 2 2).2 * 2 ≤ MAX_SAFE_INTEGER :=
  word_size_selected_bound 2 2 (by decide) (by decide) (by decide) (by decide)

/-- C6 (counterexample): the class constructor performs no check: a
direct construction wraps a 25-character string lexicographically above
`Uuid25.MAX` whose numeric reading exceeds 2^128 − 1, with no error. -/
theorem constructor_unchecked :
    (Uuid25.mk (List.replicate 25 'z')).value = List.replicate 25 'z' ∧
    jsLe (Uuid25.mk (List.replicate 25 'z')).value Uuid25.MAX = false ∧
    2 ^ 128 - 1
      < valBE 36 (decode36 (Uuid25.mk (List.replicate 25 'z')).value) :=
  ⟨rfl, by decide, by decide⟩

/-- C6 (amended): every instance produced by `fromDigitValues`,
`fromBytes`, or any `parse` entry point wraps a 25-character lowercase
base-36 string lexicographically at most `Uuid25.MAX`; the raw
constructor (direct construction of the value type) performs no such
check. -/
theorem checked_paths_bound :
    (∀ dv u, Uuid25.fromDigitValues dv = .ok u → canonicalValue u.value) ∧
    (∀ b u, Uuid25.fromBytes b = .ok u → canonicalValue u.value) ∧
    (∀ s u, Uuid25.parse s = .ok u → canonicalValue u.value) :=
  ⟨fun dv u h => (fromDigitValues_canonical dv u h).1,
    fromBytes_ok_canonical, parse_ok_canonical⟩

/-- C6 (amended, witness). -/
theorem checked_paths_bound_witness :
    canonicalValue (Uuid25.mk "dpoadk8izg9y4tte7vy1xt94o".data).value :=
  checked_paths_bound.2.2 "dpoadk8izg9y4tte7vy1xt94o".data
    ⟨"dpoadk8izg9y4tte7vy1xt94o".data⟩ rfl

/-- C7: an input whose length is not 25, 26, 32, 36, 38, or 45 always
fails with a `SyntaxError`. -/
theorem length_dispatch_syntax (s : List Char)
    (h : s.length ≠ 25 ∧ s.length ≠ 26 ∧ s.length ≠ 32 ∧ s.length ≠ 36 ∧
      s.length ≠ 38 ∧ s.length ≠ 45) :
    Uuid25.parse s = .error .syntaxError :=
  parse_len_other s h

/-- C7 (witness). -/
theorem length_dispatch_syntax_witness :
    Uuid25.parse "not-a-uuid".data = .error .syntaxError :=
  length_dispatch_syntax "not-a-uuid".data (by decide)

/-- C8: whenever `parse` accepts a string, it also accepts its ASCII
uppercase and lowercase forms and returns structurally equal values. -/
theorem case_insensitive_parse (s : List Char) (u : Uuid25)
    (h : Uuid25.parse s = .ok u) :
    Uuid25.parse (s.map toUpperAscii) = .ok u ∧
    Uuid25.parse (s.map toLowerAscii) = .ok u := by
  rw [parse_map toUpperAscii upper_parserInvariant s,
    parse_map toLowerAscii lower_parserInvariant s]
  exact ⟨h, h⟩

/-- C8 (witness). -/
theorem case_insensitive_parse_witness :
    Uuid25.parse ("8da942a4-1fbe-4ca6-852c-95c473229c7d".data.map toUpperAscii)
      = .ok ⟨"8dx554y5rzerz1syhqsvsdw8t".data⟩ ∧
    Uuid25.parse ("8da942a4-1fbe-4ca6-852c-95c473229c7d".data.map toLowerAscii)
      = .ok ⟨"8dx554y5rzerz1syhqsvsdw8t".data⟩ :=
  case_insensitive_parse "8da942a4-1fbe-4ca6-852c-95c473229c7d".data
    ⟨"8dx554y5rzerz1syhqsvsdw8t".data⟩ rfl

/-- C9: for every 26-character input, `parse` returns the same result as
on the string with `I`, `i`, `L`, `l` replaced by `1` and `O`, `o`
replaced by `0`. -/
theorem crockford_confusables (s : List Char) (hlen : s.length = 26) :
    Uuid25.parse s = Uuid25.parse (s.map crockfordNormalize) := by
  have hlen' : (s.map crockfordNormalize).length = 26 := by
    rw [List.length_map]
    exact hlen
  rw [parse_len26 s hlen, parse_len26 _ hlen', Uuid25.parseCrockford,
    Uuid25.parseCrockford]
  have hcond : ((s.map crockfordNormalize).length = 26
      ∧ (s.map crockfordNormalize).all isAsciiAlnum)
      ↔ (s.length = 26 ∧ s.all isAsciiAlnum) := by
    rw [List.length_map, all_map_eq isAsciiAlnum crockfordNormalize normalize_alnum]
  by_cases hc : s.length = 26 ∧ s.all isAsciiAlnum
  · rw [if_pos hc, if_pos (hcond.mpr hc)]
    have hdc : decodeCrockfordChars (s.map crockfordNormalize)
        = decodeCrockfordChars s := by
      rw [decodeCrockfordChars, decodeCrockfordChars,
        decodeCrockfordList_map crockfordNormalize normalize_crock]
    rw [hdc]
  · rw [if_neg hc, if_neg (fun hx => hc (hcond.mp hx))]

/-- C9 (witness). -/
theorem crockford_confusables_witness :
    Uuid25.parse "1ILOlo1ILOlo1ILOlo1ILOlo10".data
      = Uuid25.parse ("1ILOlo1ILOlo1ILOlo1ILOlo10".data.map crockfordNormalize) :=
  crockford_confusables "1ILOlo1ILOlo1ILOlo1ILOlo10".data (by decide)

/-- C10: on any value satisfying the canonical invariant, `toHex`
returns exactly 32 lowercase hex characters, so the formatter regular
expression of `toHyphenated` matches and `toHyphenated`, `toBraced`,
and `toUrn` never throw. -/
theorem formatters_never_throw (u : Uuid25) (h : canonicalValue u.value) :
    ∃ hx, Uuid25.toHex u = .ok hx ∧ hx.length = 32 ∧
      (∀ c ∈ hx, isLowerHexChar c = true) ∧
      ∃ t, Uuid25.toHyphenated u = .ok t ∧
        Uuid25.toBraced u = .ok (braceOpen :: t ++ [braceClose]) ∧
        Uuid25.toUrn u = .ok ("urn:uuid:".data ++ t) := by
  obtain ⟨hx, t, hhex, hlen32, hlower, _, hhyph, _, _, hbr, _, hurn, _⟩ :=
    formats_spec u h
  exact ⟨hx, hhex, hlen32, hlower, t, hhyph, hbr, hurn⟩

/-- C10 (witness). -/
theorem formatters_never_throw_witness :
    ∃ hx, Uuid25.toHex ⟨"dpoadk8izg9y4tte7vy1xt94o".data⟩ = .ok hx ∧
      hx.length = 32 ∧ (∀ c ∈ hx, isLowerHexChar c = true) ∧
      ∃ t, Uuid25.toHyphenated ⟨"dpoadk8izg9y4tte7vy1xt94o".data⟩ = .ok t ∧
        Uuid25.toBraced ⟨"dpoadk8izg9y4tte7vy1xt94o".data⟩
          = .ok (braceOpen :: t ++ [braceClose]) ∧
        Uuid25.toUrn ⟨"dpoadk8izg9y4tte7vy1xt94o".data⟩
          = .ok ("urn:uuid:".data ++ t) :=
  formatters_never_throw ⟨"dpoadk8izg9y4tte7vy1xt94o".data⟩
    ⟨by decide, by decide, by decide⟩
